import Mathlib

/-!
# Verification of the speculative Huffman decoder core

Shallow embedding of the repository `Prediction-Based-Speculative-Decoding`
(files under `source/`): the Huffman coding core (`huffman/Huffman.py`),
the single-symbol decoder (`decoders/SingleDecoder.py`), the speculative
decoder (`decoders/SpeculativeDecoder.py`), the simple probabilistic scheme
and its statistical calculator (`theory/simple/*.py`), the optimizer
(`optimizers/SimpleOptimizer.py`) and the variants generator
(`optimizers/VariantsGenerator.py`).

Modelling conventions:
* Python bit strings become `List Char` (the code distinguishes the
  characters `'0'`, `'1'` and anything else, so `Char` is kept).
* Symbols become `ℕ`, frequencies `ℕ`, probabilities `ℚ`
  (the Python floats are modelled by exact rationals).
* A Python function that can raise becomes `Except String _`; an internal
  computation that can raise `IndexError` becomes `Option _`.
* `None`-able references become `Option _`.
* Python `dict`s become insertion-ordered association lists.
* The two unbounded loops of the speculative decoder (the chain-stitching
  loop of `speculate` and the outer `decode` loop) are modelled with
  explicit fuel; sufficiency of the fuel is proved where a claim needs it.
-/

namespace SpecDecoding

/-- `source/huffman/Huffman.py`, class `Node`: a Huffman-tree node with an
optional symbol, a frequency and optional children. -/
inductive Node where
  | mk (symbol : Option ℕ) (frequency : ℕ) (left : Option Node) (right : Option Node)
deriving Repr

/-- The stored symbol (`Node.symbol`). -/
def Node.symbol : Node → Option ℕ
  | .mk s _ _ _ => s

/-- The stored frequency (`Node.frequency`). -/
def Node.frequency : Node → ℕ
  | .mk _ f _ _ => f

/-- The left child (`Node.left`). -/
def Node.left : Node → Option Node
  | .mk _ _ l _ => l

/-- The right child (`Node.right`). -/
def Node.right : Node → Option Node
  | .mk _ _ _ r => r

/-- `HuffmanCode.decode` (`Huffman.py` lines 276-319): walk the tree bit by
bit starting from `cur`; descending into a missing child raises; on reaching
a node that carries a symbol, emit it and restart at the root.  The Python
`for` loop treats every character other than `'0'` as a right descent. -/
def hDecodeGo (root : Node) : List Char → Node → List ℕ → Except String (List ℕ)
  | [], _, acc => .ok acc.reverse
  | c :: rest, cur, acc =>
    if c = '0' then
      match cur.left with
      | none => .error "Invalid encoded bits: cannot traverse left from current node"
      | some nxt =>
        match nxt.symbol with
        | some s => hDecodeGo root rest root (s :: acc)
        | none => hDecodeGo root rest nxt acc
    else
      match cur.right with
      | none => .error "Invalid encoded bits: cannot traverse right from current node"
      | some nxt =>
        match nxt.symbol with
        | some s => hDecodeGo root rest root (s :: acc)
        | none => hDecodeGo root rest nxt acc

/-- `HuffmanCode.decode`: empty input or a missing tree decodes to `[]`;
a root that carries a symbol (single-symbol tree) turns every bit into one
copy of that symbol; otherwise the tree is walked. -/
def hDecode (encoded_bits : List Char) (huffman_tree : Option Node) :
    Except String (List ℕ) :=
  match huffman_tree with
  | none => .ok []
  | some root =>
    if encoded_bits = [] then .ok []
    else
      match root.symbol with
      | some s => .ok (List.replicate encoded_bits.length s)
      | none => hDecodeGo root encoded_bits root []

/-- `HuffmanCode.encode` (`Huffman.py` lines 240-273), the per-symbol loop:
look each symbol up in the code table, raising on the first missing one. -/
def hEncodeGo (huffman_codes : List (ℕ × List Char)) :
    List ℕ → Except String (List Char)
  | [] => .ok []
  | s :: rest =>
    match huffman_codes.lookup s with
    | some c => (hEncodeGo huffman_codes rest).map (fun tl => c ++ tl)
    | none => .error "Symbol not found in Huffman codes"

/-- `HuffmanCode.encode`: empty data or an empty code table short-circuits
to the empty bit string; otherwise the symbols are looked up and their codes
concatenated. -/
def hEncode (data : List ℕ) (huffman_codes : List (ℕ × List Char)) :
    Except String (List Char) :=
  if data = [] ∨ huffman_codes = [] then .ok []
  else hEncodeGo huffman_codes data

/-- `source/decoders/SingleDecodingResult.py`: the frozen dataclass. -/
structure SingleDecodingResult where
  was_decoded : Bool
  symbol : Option ℕ
  length : ℕ
deriving Repr, DecidableEq

/-- The all-failure result `{false, none, 0}`. -/
def SDRfail : SingleDecodingResult := ⟨false, none, 0⟩

/-- The tree walk of `SingleDecoder._decode` (`SingleDecoder.py` lines
84-109): consume characters, counting them in `consumed`; a missing child or
an invalid character fails with the bits consumed so far; reaching a node
with a symbol succeeds; running out of characters fails. -/
def walkOne : List Char → Node → ℕ → SingleDecodingResult
  | [], _, consumed => ⟨false, none, consumed⟩
  | c :: rest, cur, consumed =>
    if c = '0' then
      match cur.left with
      | none => ⟨false, none, consumed + 1⟩
      | some nxt =>
        match nxt.symbol with
        | some s => ⟨true, some s, consumed + 1⟩
        | none => walkOne rest nxt (consumed + 1)
    else if c = '1' then
      match cur.right with
      | none => ⟨false, none, consumed + 1⟩
      | some nxt =>
        match nxt.symbol with
        | some s => ⟨true, some s, consumed + 1⟩
        | none => walkOne rest nxt (consumed + 1)
    else ⟨false, none, consumed + 1⟩

/-- `SingleDecoder._decode` (`SingleDecoder.py` lines 47-109): guard clauses
for empty data / out-of-range position / missing tree, the single-symbol
fast path (`self._single_symbol`, set in `__init__` from the root's symbol),
and otherwise the tree walk over `data[position:]`. -/
def singleDecode (decoding_tree : Option Node) (data : List Char) (position : ℕ) :
    SingleDecodingResult :=
  if data = [] ∨ position ≥ data.length then SDRfail
  else
    match decoding_tree with
    | none => SDRfail
    | some root =>
      match root.symbol with
      | some s => ⟨true, some s, 1⟩
      | none => walkOne (data.drop position) root 0

end SpecDecoding

namespace SpecDecoding

/-! ## Claims C3: the single decoder's guard clauses and fast path -/

/-- **C3.** `SingleDecoder.decode(bits, position)` returns
`{was_decoded=false, symbol=none, length=0}` whenever the bits are empty,
the position is past the end, or the tree is `None`; and when the tree is a
bare leaf carrying a symbol and the position is in range, it returns
`{true, leaf.symbol, 1}` no matter what character sits at that position. -/
theorem singleDecode_guards_and_leaf (t : Option Node) (data : List Char)
    (position : ℕ) :
    (data = [] ∨ position ≥ data.length ∨ t = none →
      singleDecode t data position = SDRfail) ∧
    (∀ (s : ℕ) (f : ℕ), t = some (.mk (some s) f none none) →
      position < data.length →
      singleDecode t data position = ⟨true, some s, 1⟩) := by
  constructor
  · intro h
    rcases h with h | h | h
    · simp [singleDecode, h]
    · simp [singleDecode, h]
    · subst h
      unfold singleDecode
      split
      · rfl
      · rfl
  · intro s f ht hpos
    subst ht
    have hne : ¬(data = [] ∨ position ≥ data.length) := by
      push_neg
      exact ⟨by rintro rfl; simp at hpos, hpos⟩
    simp only [singleDecode, if_neg hne]
    rfl

/-- **C3 witness.** The guard clause at a concrete out-of-range position and
the bare-leaf fast path on the concrete character `'x'`. -/
theorem singleDecode_guards_and_leaf_witness :
    singleDecode (some (.mk (some 7) 3 none none)) ['x'] 5 = SDRfail ∧
    singleDecode (some (.mk (some 7) 3 none none)) ['x'] 0 = ⟨true, some 7, 1⟩ :=
  ⟨(singleDecode_guards_and_leaf _ _ _).1 (Or.inr (Or.inl (by norm_num))),
   (singleDecode_guards_and_leaf _ _ _).2 7 3 rfl (by norm_num)⟩

/-! ## Claim C4: encode is concatenation, failing on unknown symbols -/

/-- **C4 counterexample.** Encoding the non-empty sequence `[1]` against the
empty code table does not fail: `HuffmanCode.encode` short-circuits on
`not huffman_codes` and returns the empty bit string, contradicting the
claim that it fails with *UnknownSymbol*. -/
theorem hEncode_empty_table_counterexample :
    hEncode [1] [] = Except.ok [] := rfl

/-- **C4 (amended).** Against a non-empty code table, `HuffmanCode.encode`
returns the concatenation of the per-symbol codes when every symbol of the
sequence has an entry, and fails with *UnknownSymbol* when some symbol has
no entry; against an empty code table (or for an empty sequence) it returns
the empty bit string instead of failing. -/
theorem hEncode_spec (data : List ℕ) (codes : List (ℕ × List Char))
    (hnodup : (codes.map Prod.fst).Nodup) :
    (codes ≠ [] → (∀ s ∈ data, (codes.lookup s).isSome) →
      hEncode data codes =
        .ok (data.flatMap fun s => (codes.lookup s).getD [])) ∧
    (codes ≠ [] → (∃ s ∈ data, codes.lookup s = none) →
      ∃ e, hEncode data codes = .error e) ∧
    hEncode data [] = .ok [] := by
  refine ⟨?_, ?_, by simp [hEncode]⟩
  · intro hc hall
    have hgo : ∀ d : List ℕ, (∀ s ∈ d, (codes.lookup s).isSome) →
        hEncodeGo codes d = .ok (d.flatMap fun s => (codes.lookup s).getD []) := by
      intro d
      induction d with
      | nil => intro _; rfl
      | cons s rest ih =>
        intro h
        have hs := h s (by simp)
        obtain ⟨c, hc'⟩ := Option.isSome_iff_exists.mp hs
        have hrest := ih (fun x hx => h x (by simp [hx]))
        simp [hEncodeGo, hc', hrest, Except.map]
    rcases eq_or_ne data [] with rfl | hd
    · simp [hEncode]
    · simpa [hEncode, hd, hc] using hgo data hall
  · intro hc hex
    obtain ⟨s, hs, hmiss⟩ := hex
    have hd : data ≠ [] := by rintro rfl; simp at hs
    have hgo : ∀ d : List ℕ, s ∈ d → ∃ e, hEncodeGo codes d = .error e := by
      intro d
      induction d with
      | nil => intro h; simp at h
      | cons x rest ih =>
        intro h
        rcases List.mem_cons.mp h with rfl | h'
        · exact ⟨"Symbol not found in Huffman codes", by simp [hEncodeGo, hmiss]⟩
        · obtain ⟨e, he⟩ := ih h'
          cases hx : codes.lookup x with
          | none => exact ⟨"Symbol not found in Huffman codes", by simp [hEncodeGo, hx]⟩
          | some c => exact ⟨e, by simp [hEncodeGo, hx, he, Except.map]⟩
    obtain ⟨e, he⟩ := hgo data hs
    exact ⟨e, by simpa [hEncode, hd, hc] using he⟩

/-- **C4 (amended) witness.** A concrete two-entry table: full encoding of a
present sequence, an error for a missing symbol, and the empty-table case. -/
theorem hEncode_spec_witness :
    hEncode [1, 2, 1] [(1, ['0']), (2, ['1', '0'])] =
      .ok ['0', '1', '0', '0'] ∧
    (∃ e, hEncode [3] [(1, ['0']), (2, ['1', '0'])] = .error e) ∧
    hEncode [1] [] = .ok [] := by
  refine ⟨?_, ?_, (hEncode_spec [1] [] (by simp)).2.2⟩
  · have h := (hEncode_spec [1, 2, 1] [(1, ['0']), (2, ['1', '0'])]
      (by decide)).1 (by simp) (by decide)
    simpa using h
  · exact (hEncode_spec [3] [(1, ['0']), (2, ['1', '0'])] (by decide)).2.1
      (by simp) ⟨3, by simp, by decide⟩

/-! ## The simple probabilistic scheme and its statistical calculator -/

/-- `source/theory/simple/SimpleProbabilisticScheme.py`: parallel lists of
outcomes and probabilities. -/
structure SimpleScheme where
  outcomes : List ℤ
  probabilities : List ℚ

/-- `SimpleProbabilisticScheme.p`: probability lookup by parallel index, `0`
for an unknown outcome. -/
def SimpleScheme.p (S : SimpleScheme) (outcome : ℤ) : ℚ :=
  if outcome ∈ S.outcomes then S.probabilities.getD (S.outcomes.indexOf outcome) 0
  else 0

/-- `SimpleStatisticalCalculations.expectation_sorted`
(`SimpleStatisticalCalculations.py` lines 14-22), with the Python recursion
made explicit: `exAuxF S fuel w i l` is the partial sum of the loop
`for i in range(w)` starting at index `i`; each term reads `l_vec[i]`
(an out-of-range read raises `IndexError`, modelled by `none`) and recurses
on `w - (i + 1)` with the vector `tuple((np.array(l_vec) - l_vec[i])[i+1:])`
— note that the simple calculator does *not* filter out non-positive
entries.  `fuel` bounds the recursion depth; `exAuxF_fuel_eq` below shows
the value does not depend on it once it is large enough, so the function
with sufficient fuel is the Python recursion. -/
def exAuxF (S : SimpleScheme) : ℕ → ℕ → ℕ → List ℤ → Option ℚ
  | 0, _, _, _ => none
  | fuel + 1, w, i, l =>
    if i < w then
      match l[i]? with
      | none => none
      | some li =>
        match exAuxF S fuel (w - (i + 1)) 0 ((l.drop (i + 1)).map (fun x => x - li)),
              exAuxF S fuel w (i + 1) l with
        | some sub, some rest => some (S.p li * (1 + sub) + rest)
        | _, _ => none
    else some 0

/-- Depth measure for `exAuxF`: the recursion from `(w, i)` terminates
within `(w+1)² - i` nested calls. -/
def exMeasure (w i : ℕ) : ℕ := (w + 1) * (w + 1) - i

theorem exAuxF_fuel_eq (S : SimpleScheme) :
    ∀ fuel₁ fuel₂ w i l, exMeasure w i < fuel₁ → exMeasure w i < fuel₂ →
      exAuxF S fuel₁ w i l = exAuxF S fuel₂ w i l := by
  intro fuel₁
  induction fuel₁ with
  | zero => intro fuel₂ w i l h1 _; omega
  | succ f ih =>
    intro fuel₂ w i l h1 h2
    cases fuel₂ with
    | zero => omega
    | succ g =>
      show exAuxF S (f + 1) w i l = exAuxF S (g + 1) w i l
      by_cases hi : i < w
      · have hww : w - (i + 1) + 1 ≤ w := by omega
        have hsq := Nat.mul_le_mul hww hww
        have hexp : (w + 1) * (w + 1) = w * w + 2 * w + 1 := by ring
        have hm1 : exMeasure (w - (i + 1)) 0 < exMeasure w i := by
          simp only [exMeasure]
          omega
        have hm2 : exMeasure w (i + 1) < exMeasure w i := by
          simp only [exMeasure]
          omega
        simp only [exAuxF, if_pos hi]
        cases hli : l[i]? with
        | none => simp only [hli]
        | some li =>
          simp only [hli]
          rw [ih g (w - (i + 1)) 0 ((l.drop (i + 1)).map (fun x => x - li))
                (by omega) (by omega),
              ih g w (i + 1) l (by omega) (by omega)]
      · simp only [exAuxF, if_neg hi]

/-- `expectation_sorted(w, l_vec)`: the calculator's memoized recursion,
run with (provably sufficient) fuel `(w+1)² + 1`.  `none` models the
`IndexError` the Python raises when `w` exceeds the vector length. -/
def expectationSorted (S : SimpleScheme) (w : ℕ) (l_vec : List ℤ) : Option ℚ :=
  exAuxF S ((w + 1) * (w + 1) + 1) w 0 l_vec

/-- With enough fuel, `exAuxF` is defined whenever the loop index is in
range and the vector has exactly `w` entries (the invariant the Python
recursion maintains for itself). -/
theorem exAuxF_isSome (S : SimpleScheme) :
    ∀ fuel w i (l : List ℤ), exMeasure w i < fuel → i ≤ w → l.length = w →
      (exAuxF S fuel w i l).isSome := by
  intro fuel
  induction fuel with
  | zero => intro w i l h1 _ _; omega
  | succ f ih =>
    intro w i l h1 hiw hlen
    by_cases hi : i < w
    · have hww : w - (i + 1) + 1 ≤ w := by omega
      have hsq := Nat.mul_le_mul hww hww
      have hexp : (w + 1) * (w + 1) = w * w + 2 * w + 1 := by ring
      have hm1 : exMeasure (w - (i + 1)) 0 < exMeasure w i := by
        simp only [exMeasure]; omega
      have hm2 : exMeasure w (i + 1) < exMeasure w i := by
        simp only [exMeasure]; omega
      have hil : i < l.length := by omega
      have hsub : (exAuxF S f (w - (i + 1)) 0
          ((l.drop (i + 1)).map (fun x => x - l[i]))).isSome := by
        apply ih
        · omega
        · omega
        · simp [List.length_drop]; omega
      have hrest : (exAuxF S f w (i + 1) l).isSome := by
        apply ih <;> omega
      simp only [exAuxF, if_pos hi, List.getElem?_eq_getElem hil]
      obtain ⟨sub, hsub'⟩ := Option.isSome_iff_exists.mp hsub
      obtain ⟨rest, hrest'⟩ := Option.isSome_iff_exists.mp hrest
      rw [hsub', hrest']
      rfl
    · simp only [exAuxF, if_neg hi, Option.isSome_some]

/-- The spec's `drop_and_shift(L, i)`: keep the later entries `L[j]`
(`j > i`) that are strictly greater than `L[i]`, each shifted down by
`L[i]`.  (Stated from the spec's words, §4.7, for comparison with the
code's recursion, which keeps *all* later entries.) -/
def dropAndShift (l : List ℤ) (i : ℕ) : List ℤ :=
  ((l.drop (i + 1)).filter (fun x => l.getD i 0 < x)).map (fun x => x - l.getD i 0)

/-- The right-hand side of the recurrence claimed in the spec (§4.7):
`Σ_{i=0..w-1} p(L[i]) · (1 + E(w−i−1, drop_and_shift(L, i)))`, with `none`
whenever some `L[i]` or some recursive expectation is undefined. -/
def specRecurrenceRHS (S : SimpleScheme) (w : ℕ) (l : List ℤ) : Option ℚ :=
  if ∀ i ∈ Finset.range w, (l[i]?).isSome ∧
      (expectationSorted S (w - i - 1) (dropAndShift l i)).isSome then
    some (∑ i ∈ Finset.range w,
      S.p (l.getD i 0) *
        (1 + (expectationSorted S (w - i - 1) (dropAndShift l i)).getD 0))
  else none

/-- **C5 counterexample.** For the scheme with the single outcome `1` of
probability `1` and the sorted duplicate vector `L = (1, 1)` with `w = 2`,
the code's `expectation_sorted(2, (1,1))` is `2`, but the claimed
right-hand side is undefined: `drop_and_shift((1,1), 0)` drops the
duplicate, so the recursion is asked for `expectation_sorted(1, ())`, which
reads `l_vec[0]` of an empty tuple and raises `IndexError`.  The simple
calculator does not drop entries equal to `L[i]`; it keeps all later
entries. -/
theorem expectationSorted_recurrence_counterexample :
    expectationSorted ⟨[1], [1]⟩ 2 [1, 1] = some 2 ∧
    specRecurrenceRHS ⟨[1], [1]⟩ 2 [1, 1] = none := by
  constructor
  · norm_num [expectationSorted, exAuxF, SimpleScheme.p]
  · rw [specRecurrenceRHS, if_neg]
    intro h
    have h0 := (h 0 (by norm_num)).2
    norm_num [expectationSorted, exAuxF, dropAndShift] at h0

/-- **C5 (amended).** For every scheme, every `w ≥ 1` and every *strictly*
sorted (duplicate-free) vector `L` of `w` nonnegative entries, the simple
calculator satisfies the claimed recurrence
`E(w, L) = Σ_i p(L[i]) · (1 + E(w−i−1, drop_and_shift(L, i)))`; with
duplicates the recurrence fails (the calculator keeps entries equal to
`L[i]`, merely shifted to `0`, while `drop_and_shift` drops them). -/
theorem expectationSorted_recurrence (S : SimpleScheme) (w : ℕ) (l : List ℤ)
    (hw : 1 ≤ w) (hlen : l.length = w) (hsorted : l.Sorted (· < ·))
    (hnonneg : ∀ x ∈ l, 0 ≤ x) :
    expectationSorted S w l = specRecurrenceRHS S w l := by
  have hdrop : ∀ i, i < w →
      dropAndShift l i = (l.drop (i + 1)).map (fun x => x - l.getD i 0) := by
    intro i hi
    have hil : i < l.length := by omega
    unfold dropAndShift
    congr 1
    rw [List.filter_eq_self]
    intro a ha
    obtain ⟨j, hj, rfl⟩ := List.mem_iff_getElem.mp ha
    have hj' : i + 1 + j < l.length := by
      have hj2 := hj
      simp only [List.length_drop] at hj2
      omega
    rw [List.getElem_drop]
    rw [List.getD_eq_getElem _ _ hil]
    have hlt := List.pairwise_iff_getElem.mp hsorted i (i + 1 + j)
      hil hj' (by omega)
    simpa using hlt
  have hlendrop : ∀ i, i < w → ((l.drop (i + 1)).map
      (fun x => x - l.getD i 0)).length = w - i - 1 := by
    intro i hi
    simp [List.length_drop]
    omega
  have hdef : ∀ i, i < w → (l[i]?).isSome ∧
      (expectationSorted S (w - i - 1) (dropAndShift l i)).isSome := by
    intro i hi
    refine ⟨by rw [List.getElem?_eq_getElem (by omega)]; rfl, ?_⟩
    rw [hdrop i hi]
    apply exAuxF_isSome
    · simp only [exMeasure]; omega
    · omega
    · exact hlendrop i hi
  have hsums : ∀ k, k ≤ w → ∀ fuel, exMeasure w (w - k) < fuel →
      exAuxF S fuel w (w - k) l =
        some (∑ i ∈ Finset.Ico (w - k) w,
          S.p (l.getD i 0) *
            (1 + (expectationSorted S (w - i - 1) (dropAndShift l i)).getD 0)) := by
    intro k
    induction k with
    | zero =>
      intro _ fuel hfuel
      cases fuel with
      | zero => simp only [exMeasure] at hfuel; omega
      | succ f => simp [exAuxF]
    | succ k ihk =>
      intro hk fuel hfuel
      have hexp : (w + 1) * (w + 1) = w * w + 2 * w + 1 := by ring
      cases fuel with
      | zero =>
        exfalso
        simp only [exMeasure] at hfuel
        omega
      | succ f =>
        set i := w - (k + 1) with hidef
        have hi : i < w := by omega
        have hil : i < l.length := by omega
        have hww : w - (i + 1) + 1 ≤ w := by omega
        have hsq := Nat.mul_le_mul hww hww
        have hm1 : exMeasure (w - (i + 1)) 0 < exMeasure w i := by
          simp only [exMeasure]; omega
        have hm2 : exMeasure w (i + 1) < exMeasure w i := by
          simp only [exMeasure]; omega
        have hwi : w - (i + 1) = k := by omega
        have hgd : l.getD i 0 = l[i] := List.getD_eq_getElem _ _ hil
        -- the recursive sub-expectation
        have hwi2 : w - i - 1 = k := by omega
        have hm1k : exMeasure k 0 < exMeasure w i := by rw [← hwi]; exact hm1
        have hsubval : exAuxF S f (w - (i + 1)) 0
            ((l.drop (i + 1)).map (fun x => x - l[i])) =
            expectationSorted S (w - i - 1) (dropAndShift l i) := by
          rw [hdrop i hi, hgd]
          unfold expectationSorted
          rw [hwi, hwi2]
          apply exAuxF_fuel_eq
          · simp only [exMeasure] at hm1k hfuel ⊢
            omega
          · simp only [exMeasure]
            omega
        have hik : i + 1 = w - k := by omega
        have hrest : exAuxF S f w (i + 1) l =
            some (∑ j ∈ Finset.Ico (i + 1) w,
              S.p (l.getD j 0) *
                (1 + (expectationSorted S (w - j - 1) (dropAndShift l j)).getD 0)) := by
          rw [hik]
          apply ihk (by omega)
          rw [← hik]
          simp only [exMeasure] at hm2 hfuel ⊢
          omega
        obtain ⟨sub, hsub⟩ := Option.isSome_iff_exists.mp (hdef i hi).2
        simp only [exAuxF, if_pos hi, List.getElem?_eq_getElem hil]
        rw [hsubval, hsub, hrest]
        have hico : ∑ j ∈ Finset.Ico i w,
            S.p (l.getD j 0) *
              (1 + (expectationSorted S (w - j - 1) (dropAndShift l j)).getD 0) =
            S.p (l.getD i 0) *
              (1 + (expectationSorted S (w - i - 1) (dropAndShift l i)).getD 0) +
            ∑ j ∈ Finset.Ico (i + 1) w,
              S.p (l.getD j 0) *
                (1 + (expectationSorted S (w - j - 1) (dropAndShift l j)).getD 0) :=
          Finset.sum_eq_sum_Ico_succ_bot hi _
        rw [hico, hgd, hsub]
        simp
  have hfin := hsums w (le_refl w) ((w + 1) * (w + 1) + 1)
    (by simp only [exMeasure, Nat.sub_self]; omega)
  rw [Nat.sub_self] at hfin
  unfold expectationSorted specRecurrenceRHS
  rw [if_pos]
  · rw [hfin, Finset.range_eq_Ico]
  · intro i hi
    exact hdef i (Finset.mem_range.mp hi)

/-- **C5 (amended) witness.** The recurrence at the concrete scheme
`([1,2,3], [1/2, 3/10, 1/5])`, `w = 2`, `L = (1, 2)`. -/
theorem expectationSorted_recurrence_witness :
    expectationSorted ⟨[1, 2, 3], [1/2, 3/10, 1/5]⟩ 2 [1, 2] =
      specRecurrenceRHS ⟨[1, 2, 3], [1/2, 3/10, 1/5]⟩ 2 [1, 2] :=
  expectationSorted_recurrence _ 2 [1, 2] (by norm_num) (by decide)
    (by decide) (by decide)

/-- **C9.** For the simple scheme with outcomes `[1,2,3]` and probabilities
`[0.5, 0.3, 0.2]`, `expectation_sorted(2, (1,2))` equals exactly
`21/20 = 1.05` in exact rational arithmetic:
`0.5·(1 + 0.5) + 0.3·1`. -/
theorem expectationSorted_s4_value :
    expectationSorted ⟨[1, 2, 3], [1/2, 3/10, 1/5]⟩ 2 [1, 2] = some (21/20) := by
  norm_num [expectationSorted, exAuxF, SimpleScheme.p]

/-! ## Claim C6: ImpossibleRequest in `get_top` and `get_baseline_set` -/

/-- `SimpleProbabilisticScheme.get_top` (`SimpleProbabilisticScheme.py`
lines 12-18): sort the `(outcome, p(outcome))` pairs by probability,
descending and stable (Python `sorted(..., reverse=True)`); raise when `n`
exceeds the number of pairs; otherwise return the first `n` outcomes. -/
def getTop (S : SimpleScheme) (n : ℕ) : Except String (List ℤ) :=
  let oaps := (S.outcomes.map (fun o => (o, S.p o))).mergeSort
    (fun a b => decide (b.2 ≤ a.2))
  if n > oaps.length then
    .error "outcomes are impossible"
  else .ok ((oaps.take n).map Prod.fst)

/-- `VariantsGenerator.get_baseline_set`, inner `_get_j_set(j)`
(`VariantsGenerator.py` lines 30-39): the set of sums of exactly `j` terms
drawn from `lengths` (`{0}` for `j = 0`). -/
def jSet (lengths : List ℕ) : ℕ → Finset ℕ
  | 0 => {0}
  | j + 1 => (jSet lengths j).biUnion (fun r => (lengths.map (fun b => b + r)).toFinset)

/-- `get_baseline_set`: the union `⋃_{k=1..j} _get_j_set(k)` accumulated by
the `for k in range(1, j + 1)` loop. -/
def baselineResult (lengths : List ℕ) (j : ℕ) : Finset ℕ :=
  (Finset.range j).biUnion (fun k => jSet lengths (k + 1))

/-- `VariantsGenerator.get_baseline_set(n, j)` (`VariantsGenerator.py`
lines 29-48): if the union has fewer than `n` elements, recurse with
`j + 1`; otherwise return the `n` smallest elements sorted.  The recursion
has no other exit, so it is modelled with fuel: `none` means that no
number of unfoldings produced a result. -/
def getBaselineSetFuel (lengths : List ℕ) (n : ℕ) : ℕ → ℕ → Option (List ℕ)
  | _, 0 => none
  | j, fuel + 1 =>
    let result := baselineResult lengths j
    if result.card < n then getBaselineSetFuel lengths n (j + 1) fuel
    else some (((result.sort (· ≤ ·))).take n)

/-- `get_baseline_set(n)` starting at `j` diverges: no amount of fuel makes
the recursion return. -/
def baselineDiverges (lengths : List ℕ) (n j : ℕ) : Prop :=
  ∀ fuel, getBaselineSetFuel lengths n j fuel = none

/-- With no stored lengths, every `_get_j_set(k + 1)` is empty. -/
theorem jSet_nil (k : ℕ) : jSet [] (k + 1) = ∅ := by
  show (jSet [] k).biUnion _ = ∅
  ext x
  simp

/-- With no stored lengths, the accumulated union is empty at every `j`. -/
theorem baselineResult_nil (j : ℕ) : baselineResult [] j = ∅ := by
  unfold baselineResult
  ext x
  simp [jSet_nil]

/-- **C6 counterexample.** `get_baseline_set(1)` on the empty length list
does not surface any error: the accumulated set stays empty, `len(result)
< n` holds at every `j`, and the method recurses on `j + 1` forever — it
never returns, rather than raising *ImpossibleRequest*. -/
theorem getBaselineSet_diverges_counterexample : baselineDiverges [] 1 1 := by
  have h : ∀ fuel j, getBaselineSetFuel [] 1 j fuel = none := by
    intro fuel
    induction fuel with
    | zero => intro j; rfl
    | succ f ih =>
      intro j
      show (if (baselineResult [] j).card < 1 then _ else _) = none
      rw [baselineResult_nil, if_pos (by simp)]
      exact ih (j + 1)
  intro fuel
  exact h fuel 1

/-- **C6 (amended).** `get_top(n)` surfaces *ImpossibleRequest* whenever
`n` exceeds the number of stored outcomes; but `get_baseline_set(n)` does
not surface an error when the achievable sums can never reach `n`
elements — it recurses forever (never returns). -/
theorem getTop_error_and_baseline_divergence :
    (∀ (S : SimpleScheme) (n : ℕ), S.outcomes.length < n →
      ∃ e, getTop S n = .error e) ∧
    (∀ (lengths : List ℕ) (n j : ℕ),
      (∀ k, (baselineResult lengths k).card < n) →
      baselineDiverges lengths n j) := by
  constructor
  · intro S n hn
    refine ⟨"outcomes are impossible", ?_⟩
    unfold getTop
    rw [if_pos]
    simp only [List.length_mergeSort, List.length_map]
    exact hn
  · intro lengths n j hcard
    have h : ∀ fuel j, getBaselineSetFuel lengths n j fuel = none := by
      intro fuel
      induction fuel with
      | zero => intro j'; rfl
      | succ f ih =>
        intro j'
        show (if (baselineResult lengths j').card < n then _ else _) = none
        rw [if_pos (hcard j')]
        exact ih (j' + 1)
    intro fuel
    exact h fuel j

/-- **C6 (amended) witness.** A concrete overlarge request against a
one-outcome scheme, and the concrete divergent baseline request. -/
theorem getTop_error_and_baseline_divergence_witness :
    (∃ e, getTop ⟨[1], [1]⟩ 2 = .error e) ∧ baselineDiverges [] 1 1 :=
  ⟨getTop_error_and_baseline_divergence.1 ⟨[1], [1]⟩ 2 (by norm_num),
   getTop_error_and_baseline_divergence.2 [] 1 1
     (fun k => by rw [baselineResult_nil]; simp)⟩

/-! ## Claim C7: `SimpleOptimizer.greedy` -/

/-- `SimpleStatisticalCalculations.score(w, l_vec)`: the expectation of the
sorted vector. -/
def score (S : SimpleScheme) (w : ℕ) (l_vec : List ℤ) : Option ℚ :=
  expectationSorted S w (l_vec.mergeSort (fun a b => decide (a ≤ b)))

/-- `SimpleOptimizer._greedy(w)` (`SimpleOptimizer.py` lines 59-62):
`sorted(get_top(w))` scored by `_calculate_score`, propagating the
*ImpossibleRequest* from `get_top`. -/
def greedyTop (S : SimpleScheme) (w : ℕ) : Except String (Option ℚ × List ℤ) :=
  match getTop S w with
  | .error e => .error e
  | .ok top =>
    let variant := top.mergeSort (fun a b => decide (a ≤ b))
    .ok (score S w variant, variant)

/-- `SimpleOptimizer.greedy(w, r)` (`SimpleOptimizer.py` lines 64-87).
For `r = 1` it delegates to `_greedy`.  For any other `r` the Python code
evaluates `future_scheme.compact()` on the `SimpleProbabilisticScheme`
returned by `get_scheme_for_sum`, but no `compact` method exists anywhere
in the repository, so this branch unconditionally raises
`AttributeError` before producing any priorities; the branch is therefore
embedded as that error. -/
def greedy (S : SimpleScheme) (w r : ℕ) : Except String (Option ℚ × List ℤ) :=
  if r = 1 then greedyTop S w
  else .error
    "AttributeError: SimpleProbabilisticScheme object has no attribute compact"

/-- **C7 (code bug).** `greedy(w, r)` with `r = 2` on the scheme
`([1,2], [1/2, 1/2])` does not return the accumulated-priority top-`w`
vector the spec describes: the `r > 1` branch calls the nonexistent method
`compact()` and always fails with `AttributeError`. -/
theorem greedy_r2_attribute_error :
    greedy ⟨[1, 2], [1/2, 1/2]⟩ 1 2 = .error
      "AttributeError: SimpleProbabilisticScheme object has no attribute compact" := by
  rfl

/-! ## The speculative decoder -/

/-- The predictor interface used by `SpeculativeDecoder`
(`source/predictors/BasePredictor.py` and subclasses): a state type with
`implicitly_predict(n)` (read-only in every predictor of the repository)
and `feed(length)`.  Predicted lengths are codeword bit-lengths, hence
naturals. -/
structure Predictor (σ : Type) where
  implicitlyPredict : σ → ℕ → List ℕ
  feed : σ → ℕ → σ

/-- The `results` dictionary of `SpeculativeDecoder.speculate`
(`SpeculativeDecoder.py` lines 48-54): for each offset in `lengths` with
`current_position + length < len(data)`, attempt a single decode and store
the successful results keyed by offset (later writes overwrite, which is
harmless: the single decode at a fixed position is deterministic). -/
def resultsMap (t : Option Node) (data : List Char) (pos : ℕ) (lengths : List ℕ) :
    ℕ → Option SingleDecodingResult :=
  lengths.foldl (fun m len =>
    if pos + len < data.length then
      let r := singleDecode t data (pos + len)
      if r.was_decoded then (fun k => if k = len then some r else m k) else m
    else m) (fun _ => none)

/-- The chain-stitching `while current_offset in results` loop
(`SpeculativeDecoder.py` lines 60-69), with fuel.  Every stored result has
length ≥ 1 (`resultsMap_spec` below), so offsets strictly increase and at
most `lengths.length` distinct keys can be hit: fuel `lengths.length + 1`
makes the fuelled loop agree with Python's unbounded one. -/
def chainGo (results : ℕ → Option SingleDecodingResult) :
    ℕ → ℕ → List SingleDecodingResult
  | 0, _ => []
  | fuel + 1, off =>
    match results off with
    | none => []
    | some r => r :: chainGo results fuel (off + r.length)

/-- The chain construction of `SpeculativeDecoder.speculate`
(`SpeculativeDecoder.py` lines 56-71) over `lengths = [0, *speculated]`:
empty when offset 0 is not among the successes, else the consecutive chain
from offset 0, with the truly-guessed flag comparing `results[0].length`
against the speculative predictions. -/
def speculateCore (t : Option Node) (data : List Char) (pos : ℕ)
    (speculated : List ℕ) : List SingleDecodingResult × ℕ :=
  match resultsMap t data pos (0 :: speculated) 0 with
  | none => ([], 0)
  | some r0 =>
    (chainGo (resultsMap t data pos (0 :: speculated))
      ((0 :: speculated).length + 1) 0,
     if r0.length ∈ speculated then 1 else 0)

/-- The trailing `if self._chain_length_limit:` truncation (Python `None`
and `0` are falsy). -/
def applyLimit (limit : Option ℕ) (ct : List SingleDecodingResult × ℕ) :
    List SingleDecodingResult × ℕ :=
  match limit with
  | some k => if k ≠ 0 then (ct.1.take k, ct.2) else ct
  | none => ct

/-- `SpeculativeDecoder.speculate(data, current_position)`
(`SpeculativeDecoder.py` lines 24-76): guard on the position, ask the
predictor for `w` lengths via `implicitly_predict`, build the chain and
the truly-guessed flag, and apply the `chain_length_limit` truncation. -/
def speculate {σ : Type} (t : Option Node) (P : Predictor σ) (st : σ) (w : ℕ)
    (limit : Option ℕ) (data : List Char) (pos : ℕ) :
    List SingleDecodingResult × ℕ :=
  if pos ≥ data.length then ([], 0)
  else applyLimit limit (speculateCore t data pos (P.implicitlyPredict st w))

/-- The tuple returned by `SpeculativeDecoder.decode`: decoded symbols,
`(successful_decodes, total_attempts)`, commits per round, truly-guessed
flags per round. -/
structure DecodeResult where
  output : List ℕ
  successes : ℕ
  tries : ℕ
  commits : List ℕ
  tgs : List ℕ
deriving Repr, DecidableEq

/-- The `while self._current_position < len(data)` loop of
`SpeculativeDecoder.decode` (`SpeculativeDecoder.py` lines 96-134), with
the mutable state (position, predictor, accumulators, `self._previous`)
passed explicitly and fuel for the loop; `none` means the fuel ran out
(`specLoop_total` below shows `data.length + 1` always suffices). -/
def specLoop {σ : Type} (t : Option Node) (P : Predictor σ) (w : ℕ)
    (limit : Option ℕ) (data : List Char) :
    ℕ → σ → ℕ → ℕ → ℕ → List ℕ → List ℕ → List ℕ → Option ℕ →
    Option DecodeResult
  | 0, _, _, _, _, _, _, _, _ => none
  | fuel + 1, st, pos, tries, succ, outAcc, commitsAcc, tgsAcc, prev =>
    if pos < data.length then
      match speculate t P st w limit data pos with
      | ([], _) => some ⟨outAcc, succ, tries + (w + 1), commitsAcc, tgsAcc⟩
      | (chain0 :: chainRest, tg) =>
        specLoop t P w limit data fuel
          ((chain0 :: chainRest).foldl
            (fun s r => match r.symbol with
              | some _ => P.feed s r.length
              | none => s) st)
          (pos + ((chain0 :: chainRest).map (fun r => r.length)).sum)
          (tries + (w + 1))
          (succ + (chain0 :: chainRest).length)
          (outAcc ++ (chain0 :: chainRest).filterMap (fun r => r.symbol))
          (commitsAcc ++ [(chain0 :: chainRest).length])
          (tgsAcc ++ [tg])
          (match chain0.symbol with
            | some s => some s
            | none => prev)
    else some ⟨outAcc, succ, tries, commitsAcc, tgsAcc⟩

/-- `SpeculativeDecoder.decode(data)` on a freshly constructed (or flushed)
decoder: position `0`, `previous = None`, empty accumulators, loop fuel
`data.length + 1`. -/
def specDecode {σ : Type} (t : Option Node) (P : Predictor σ) (w : ℕ)
    (limit : Option ℕ) (data : List Char) (st : σ) : Option DecodeResult :=
  specLoop t P w limit data (data.length + 1) st 0 0 0 [] [] [] none

/-- `HuffmanCode.build_decoding_tree` (`Huffman.py` lines 321-358), inner
loop: walk the code from `cur`, creating `Node(None, 0)` children as
needed (a non-`'0'` character walks right), and attach the symbol at the
terminal node. -/
def insertCode : Node → List Char → ℕ → Node
  | .mk _ f l r, [], sym => .mk (some sym) f l r
  | .mk s f l r, c :: rest, sym =>
    if c = '0' then
      .mk s f (some (insertCode (l.getD (.mk none 0 none none)) rest sym)) r
    else
      .mk s f l (some (insertCode (r.getD (.mk none 0 none none)) rest sym))

/-- `HuffmanCode.build_decoding_tree(huffman_codes)`: `None` for an empty
table, otherwise insert every `(symbol, code)` into a fresh
`Node(None, 0)` root. -/
def buildDecodingTree (huffman_codes : List (ℕ × List Char)) : Option Node :=
  if huffman_codes = [] then none
  else some (huffman_codes.foldl
    (fun root sc => insertCode root sc.2 sc.1) (.mk none 0 none none))

/-! ### Basic facts about the walk and the results map -/

/-- The `bits_consumed` counter only shifts the reported length. -/
theorem walkOne_consumed :
    ∀ (bits : List Char) (cur : Node) (c : ℕ),
      (walkOne bits cur c).was_decoded = (walkOne bits cur 0).was_decoded ∧
      (walkOne bits cur c).symbol = (walkOne bits cur 0).symbol ∧
      (walkOne bits cur c).length = c + (walkOne bits cur 0).length := by
  intro bits
  induction bits with
  | nil => intro cur c; simp [walkOne]
  | cons x rest ih =>
    intro cur c
    by_cases h0 : x = '0'
    · simp only [walkOne, if_pos h0]
      cases hcl : cur.left with
      | none => simp
      | some nxt =>
        cases hs : nxt.symbol with
        | some s => simp [hs]
        | none =>
          simp only [hs]
          have h1 := ih nxt (c + 1)
          have h2 := ih nxt (0 + 1)
          refine ⟨h1.1.trans h2.1.symm, h1.2.1.trans h2.2.1.symm, ?_⟩
          rw [h1.2.2, h2.2.2]
          omega
    · by_cases h1 : x = '1'
      · simp only [walkOne, if_neg h0, if_pos h1]
        cases hcr : cur.right with
        | none => simp
        | some nxt =>
          cases hs : nxt.symbol with
          | some s => simp [hs]
          | none =>
            simp only [hs]
            have ha := ih nxt (c + 1)
            have hb := ih nxt (0 + 1)
            refine ⟨ha.1.trans hb.1.symm, ha.2.1.trans hb.2.1.symm, ?_⟩
            rw [ha.2.2, hb.2.2]
            omega
      · simp [walkOne, if_neg h0, if_neg h1]

/-- A successful walk carries a symbol and consumed at least one bit. -/
theorem walkOne_success :
    ∀ (bits : List Char) (cur : Node) (c : ℕ),
      (walkOne bits cur c).was_decoded = true →
      (walkOne bits cur c).symbol.isSome ∧ c + 1 ≤ (walkOne bits cur c).length := by
  intro bits
  induction bits with
  | nil => intro cur c h; simp [walkOne] at h
  | cons x rest ih =>
    intro cur c h
    by_cases h0 : x = '0'
    · simp only [walkOne, if_pos h0] at h ⊢
      cases hcl : cur.left with
      | none => simp [hcl] at h
      | some nxt =>
        simp only [hcl] at h ⊢
        cases hs : nxt.symbol with
        | some s => simp [hs]
        | none =>
          simp only [hs] at h ⊢
          have := ih nxt (c + 1) h
          exact ⟨this.1, by omega⟩
    · by_cases h1 : x = '1'
      · simp only [walkOne, if_neg h0, if_pos h1] at h ⊢
        cases hcr : cur.right with
        | none => simp [hcr] at h
        | some nxt =>
          simp only [hcr] at h ⊢
          cases hs : nxt.symbol with
          | some s => simp [hs]
          | none =>
            simp only [hs] at h ⊢
            have := ih nxt (c + 1) h
            exact ⟨this.1, by omega⟩
      · simp [walkOne, if_neg h0, if_neg h1] at h

/-- A successful single decode carries a symbol, consumed at least one bit,
and started in range. -/
theorem singleDecode_success (t : Option Node) (data : List Char) (pos : ℕ)
    (h : (singleDecode t data pos).was_decoded = true) :
    (singleDecode t data pos).symbol.isSome ∧
    1 ≤ (singleDecode t data pos).length ∧ pos < data.length := by
  unfold singleDecode at h ⊢
  by_cases hg : data = [] ∨ pos ≥ data.length
  · rw [if_pos hg] at h; simp [SDRfail] at h
  · rw [if_neg hg] at h ⊢
    have hpos : pos < data.length := by
      push_neg at hg
      exact hg.2
    cases t with
    | none => simp [SDRfail] at h
    | some root =>
      cases hs : root.symbol with
      | some s => simp [hs, hpos]
      | none =>
        simp only [hs] at h ⊢
        have := walkOne_success (data.drop pos) root 0 h
        exact ⟨this.1, by omega, hpos⟩

/-- Everything the results dictionary stores is the (successful, in-range)
single decode at its own offset, keyed by an attempted offset. -/
theorem resultsMap_spec (t : Option Node) (data : List Char) (pos : ℕ)
    (lengths : List ℕ) (k : ℕ) (r : SingleDecodingResult)
    (h : resultsMap t data pos lengths k = some r) :
    r = singleDecode t data (pos + k) ∧ r.was_decoded = true ∧
    pos + k < data.length := by
  unfold resultsMap at h
  suffices hgen : ∀ (ls : List ℕ) (m : ℕ → Option SingleDecodingResult),
      (∀ k' r', m k' = some r' → r' = singleDecode t data (pos + k') ∧
        r'.was_decoded = true ∧ pos + k' < data.length) →
      ∀ k' r', (ls.foldl (fun m len =>
        if pos + len < data.length then
          let r := singleDecode t data (pos + len)
          if r.was_decoded then (fun k => if k = len then some r else m k) else m
        else m) m) k' = some r' →
        r' = singleDecode t data (pos + k') ∧ r'.was_decoded = true ∧
        pos + k' < data.length by
    exact hgen lengths (fun _ => none) (by intro k' r' h'; simp at h') k r h
  intro ls
  induction ls with
  | nil => intro m hm k' r' h'; exact hm k' r' h'
  | cons len rest ih =>
    intro m hm k' r' h'
    refine ih _ ?_ k' r' h'
    intro k'' r'' h''
    by_cases hin : pos + len < data.length
    · simp only [if_pos hin] at h''
      by_cases hdec : (singleDecode t data (pos + len)).was_decoded = true
      · simp only [if_pos hdec] at h''
        by_cases hk : k'' = len
        · rw [if_pos hk] at h''
          obtain rfl : singleDecode t data (pos + len) = r'' := by
            injection h''
          subst hk
          exact ⟨rfl, hdec, hin⟩
        · rw [if_neg hk] at h''
          exact hm k'' r'' h''
      · simp only [if_neg hdec] at h''
        exact hm k'' r'' h''
    · simp only [if_neg hin] at h''
      exact hm k'' r'' h''

/-- Every chain entry comes from the results dictionary. -/
theorem chainGo_entries (results : ℕ → Option SingleDecodingResult) :
    ∀ (fuel off : ℕ) (r : SingleDecodingResult),
      r ∈ chainGo results fuel off → ∃ k, results k = some r := by
  intro fuel
  induction fuel with
  | zero => intro off r h; simp [chainGo] at h
  | succ f ih =>
    intro off r h
    unfold chainGo at h
    cases hres : results off with
    | none => rw [hres] at h; simp at h
    | some r0 =>
      rw [hres] at h
      rcases List.mem_cons.mp h with rfl | h'
      · exact ⟨off, hres⟩
      · exact ih _ r h'

/-- Truncating the fuelled chain is the fuelled chain with less fuel. -/
theorem chainGo_take (results : ℕ → Option SingleDecodingResult) :
    ∀ (fuel k off : ℕ),
      (chainGo results fuel off).take k = chainGo results (min fuel k) off := by
  intro fuel
  induction fuel with
  | zero => intro k off; simp [chainGo]
  | succ f ih =>
    intro k off
    cases k with
    | zero => simp [chainGo]
    | succ k' =>
      rw [Nat.succ_min_succ]
      cases hres : results off with
      | none =>
        have e1 : chainGo results (f + 1) off = [] := by
          conv_lhs => unfold chainGo
          rw [hres]
        have e2 : chainGo results (f ⊓ k' + 1) off = [] := by
          conv_lhs => unfold chainGo
          rw [hres]
        rw [e1, e2]
        simp
      | some r =>
        have e1 : chainGo results (f + 1) off =
            r :: chainGo results f (off + r.length) := by
          conv_lhs => unfold chainGo
          rw [hres]
        have e2 : chainGo results (f ⊓ k' + 1) off =
            r :: chainGo results (f ⊓ k') (off + r.length) := by
          conv_lhs => unfold chainGo
          rw [hres]
        rw [e1, e2, List.take_succ_cons, ih]

/-- The chain returned by `speculate` is a fuelled chain over its own
results dictionary. -/
theorem speculate_eq_chainGo {σ : Type} (t : Option Node) (P : Predictor σ)
    (st : σ) (w : ℕ) (limit : Option ℕ) (data : List Char) (pos : ℕ)
    (hpos : pos < data.length) :
    ∃ F, (speculate t P st w limit data pos).1 =
      chainGo (resultsMap t data pos (0 :: P.implicitlyPredict st w)) F 0 := by
  unfold speculate
  rw [if_neg (by omega)]
  unfold speculateCore
  cases hres : resultsMap t data pos (0 :: P.implicitlyPredict st w) 0 with
  | none =>
    refine ⟨1, ?_⟩
    have hnil : chainGo (resultsMap t data pos (0 :: P.implicitlyPredict st w)) 1 0
        = [] := by
      conv_lhs => unfold chainGo
      rw [hres]
    rw [hnil]
    cases limit with
    | none => simp [applyLimit]
    | some k =>
      by_cases hk : k = 0 <;> simp [applyLimit, hk]
  | some r0 =>
    cases limit with
    | none =>
      exact ⟨(0 :: P.implicitlyPredict st w).length + 1, by simp [applyLimit]⟩
    | some k =>
      by_cases hk : k = 0
      · exact ⟨(0 :: P.implicitlyPredict st w).length + 1, by simp [applyLimit, hk]⟩
      · refine ⟨min ((0 :: P.implicitlyPredict st w).length + 1) k, ?_⟩
        simp [applyLimit, hk, chainGo_take]

/-- Every entry of a speculate chain is a successful single decode: it was
decoded, carries a symbol, and has length at least 1. -/
theorem speculate_chain_entries {σ : Type} (t : Option Node) (P : Predictor σ)
    (st : σ) (w : ℕ) (limit : Option ℕ) (data : List Char) (pos : ℕ)
    (r : SingleDecodingResult) (hr : r ∈ (speculate t P st w limit data pos).1) :
    r.was_decoded = true ∧ r.symbol.isSome ∧ 1 ≤ r.length := by
  by_cases hpos : pos < data.length
  · obtain ⟨F, hF⟩ := speculate_eq_chainGo t P st w limit data pos hpos
    rw [hF] at hr
    obtain ⟨k, hk⟩ := chainGo_entries _ F 0 r hr
    obtain ⟨heq, hdec, _⟩ := resultsMap_spec t data pos _ k r hk
    subst heq
    obtain ⟨h1, h2, _⟩ := singleDecode_success t data (pos + k) hdec
    exact ⟨hdec, h1, h2⟩
  · unfold speculate at hr
    rw [if_pos (by omega)] at hr
    simp at hr

/-- The results dictionary at offset 0: the single decode at the current
position when it is in range and succeeded, absent otherwise (offset 0 is
always attempted, and rewrites by later duplicate offsets store the same
value). -/
theorem resultsMap_zero (t : Option Node) (data : List Char) (pos : ℕ)
    (preds : List ℕ) :
    resultsMap t data pos (0 :: preds) 0 =
      if pos < data.length ∧ (singleDecode t data pos).was_decoded = true
      then some (singleDecode t data pos) else none := by
  have hpres : ∀ (ls : List ℕ) (m : ℕ → Option SingleDecodingResult),
      m 0 = (if pos < data.length ∧ (singleDecode t data pos).was_decoded = true
        then some (singleDecode t data pos) else none) →
      (ls.foldl (fun m len =>
        if pos + len < data.length then
          let r := singleDecode t data (pos + len)
          if r.was_decoded then (fun k => if k = len then some r else m k) else m
        else m) m) 0 =
      (if pos < data.length ∧ (singleDecode t data pos).was_decoded = true
        then some (singleDecode t data pos) else none) := by
    intro ls
    induction ls with
    | nil => intro m hm; exact hm
    | cons len rest ih =>
      intro m hm
      apply ih
      by_cases hin : pos + len < data.length
      · simp only [if_pos hin]
        by_cases hdec : (singleDecode t data (pos + len)).was_decoded = true
        · simp only [if_pos hdec]
          by_cases hlen : len = 0
          · subst hlen
            simp only [if_pos rfl]
            simp only [Nat.add_zero] at hin hdec ⊢
            simp [hin, hdec]
          · rw [if_neg (by omega)]
            exact hm
        · simp only [if_neg hdec]
          exact hm
      · simp only [if_neg hin]
        exact hm
  unfold resultsMap
  rw [List.foldl_cons]
  apply hpres
  by_cases hin : pos + 0 < data.length
  · simp only [if_pos hin]
    by_cases hdec : (singleDecode t data (pos + 0)).was_decoded = true
    · simp only [if_pos hdec, if_pos rfl]
      simp only [Nat.add_zero] at hin hdec ⊢
      simp [hin, hdec]
    · simp only [if_neg hdec]
      simp only [Nat.add_zero] at hin hdec
      rw [if_neg (by tauto)]
  · simp only [if_neg hin]
    simp only [Nat.add_zero] at hin
    rw [if_neg (by tauto)]

/-- If the mandatory offset-0 attempt fails, the chain is empty. -/
theorem speculate_empty_of_not_decoded {σ : Type} (t : Option Node)
    (P : Predictor σ) (st : σ) (w : ℕ) (limit : Option ℕ) (data : List Char)
    (pos : ℕ) (hdec : ¬ (singleDecode t data pos).was_decoded = true) :
    (speculate t P st w limit data pos).1 = [] := by
  unfold speculate
  by_cases hpos : pos ≥ data.length
  · rw [if_pos hpos]
  · rw [if_neg hpos]
    unfold speculateCore
    rw [resultsMap_zero, if_neg (by tauto)]
    cases limit with
    | none => rfl
    | some k =>
      by_cases hk : k = 0 <;> simp [applyLimit, hk]

/-- If bits remain and the offset-0 attempt succeeds, the chain is
non-empty (truncation by a truthy `chain_length_limit` keeps at least one
entry). -/
theorem speculate_nonempty_of_decoded {σ : Type} (t : Option Node)
    (P : Predictor σ) (st : σ) (w : ℕ) (limit : Option ℕ) (data : List Char)
    (pos : ℕ) (hpos : pos < data.length)
    (hdec : (singleDecode t data pos).was_decoded = true) :
    (speculate t P st w limit data pos).1 ≠ [] := by
  unfold speculate
  rw [if_neg (by omega)]
  unfold speculateCore
  rw [resultsMap_zero, if_pos ⟨hpos, hdec⟩]
  have hchain : chainGo (resultsMap t data pos (0 :: P.implicitlyPredict st w))
      ((0 :: P.implicitlyPredict st w).length + 1) 0 =
      singleDecode t data pos ::
        chainGo (resultsMap t data pos (0 :: P.implicitlyPredict st w))
          ((0 :: P.implicitlyPredict st w).length)
          (0 + (singleDecode t data pos).length) := by
    conv_lhs => unfold chainGo
    rw [resultsMap_zero, if_pos ⟨hpos, hdec⟩]
  simp only [List.length_cons] at hchain
  cases limit with
  | none => simp [applyLimit, hchain]
  | some k =>
    by_cases hk : k = 0
    · simp [applyLimit, hk, hchain]
    · cases k with
      | zero => omega
      | succ k' => simp [applyLimit, hchain]

/-! ## Claim C8: termination of the speculative decode loop -/

/-- The loop body makes strict progress: fuel `data.length + 1 - position`
always suffices, because a non-empty chain advances the position by at
least one bit (every committed single decode has length ≥ 1). -/
theorem specLoop_total {σ : Type} (t : Option Node) (P : Predictor σ)
    (w : ℕ) (limit : Option ℕ) (data : List Char) :
    ∀ (fuel : ℕ) (st : σ) (pos tries succ : ℕ)
      (outAcc commitsAcc tgsAcc : List ℕ) (prev : Option ℕ),
      data.length - pos < fuel →
      (specLoop t P w limit data fuel st pos tries succ outAcc commitsAcc
        tgsAcc prev).isSome := by
  intro fuel
  induction fuel with
  | zero =>
    intro st pos tries succ outAcc commitsAcc tgsAcc prev h
    omega
  | succ f ih =>
    intro st pos tries succ outAcc commitsAcc tgsAcc prev h
    unfold specLoop
    by_cases hpos : pos < data.length
    · rw [if_pos hpos]
      cases hsp : speculate t P st w limit data pos with
      | mk chain tg =>
        cases chain with
        | nil => simp
        | cons c0 crest =>
          have hc0 : 1 ≤ c0.length := by
            have hmem : c0 ∈ (speculate t P st w limit data pos).1 := by
              rw [hsp]
              exact List.mem_cons_self _ _
            exact (speculate_chain_entries t P st w limit data pos c0 hmem).2.2
          have htot : 1 ≤ ((c0 :: crest).map (fun r => r.length)).sum := by
            simp only [List.map_cons, List.sum_cons]
            omega
          apply ih
          omega
    · rw [if_neg hpos]
      simp

/-- **C8.** For every decode tree, predictor, width, limit and finite bit
string, `SpeculativeDecoder.decode` terminates (fuel `|bits| + 1` always
produces a result): in every iteration either the chain is empty and the
loop exits, or the position strictly increases — because every successful
single decode committed in a chain has length ≥ 1 (second conjunct). -/
theorem specDecode_terminates :
    (∀ (σ : Type) (P : Predictor σ) (st : σ) (w : ℕ) (limit : Option ℕ)
       (t : Option Node) (data : List Char),
       (specDecode t P w limit data st).isSome) ∧
    (∀ (σ : Type) (P : Predictor σ) (st : σ) (w : ℕ) (limit : Option ℕ)
       (t : Option Node) (data : List Char) (pos : ℕ)
       (r : SingleDecodingResult),
       r ∈ (speculate t P st w limit data pos).1 → 1 ≤ r.length) := by
  constructor
  · intro σ P st w limit t data
    exact specLoop_total t P w limit data (data.length + 1) st 0 0 0 [] [] []
      none (by omega)
  · intro σ P st w limit t data pos r hr
    exact (speculate_chain_entries t P st w limit data pos r hr).2.2

/-- **C8 witness.** Termination on a concrete single-symbol tree and a
concrete committed chain entry of length 1. -/
theorem specDecode_terminates_witness :
    (specDecode (some (.mk (some 7) 1 none none))
      (⟨fun _ _ => [1], fun s _ => s⟩ : Predictor Unit) 1 none
      ['0', '1'] ()).isSome ∧
    1 ≤ (⟨true, some 7, 1⟩ : SingleDecodingResult).length :=
  ⟨specDecode_terminates.1 Unit ⟨fun _ _ => [1], fun s _ => s⟩ () 1 none
    (some (.mk (some 7) 1 none none)) ['0', '1'],
   specDecode_terminates.2 Unit ⟨fun _ _ => [1], fun s _ => s⟩ () 1 none
    (some (.mk (some 7) 1 none none)) ['0', '1'] 0 ⟨true, some 7, 1⟩
    (by decide)⟩

/-! ## Claim C10: invariants of the decode statistics -/

/-- Truncation does not change the truly-guessed flag. -/
theorem applyLimit_snd (limit : Option ℕ) (ct : List SingleDecodingResult × ℕ) :
    (applyLimit limit ct).2 = ct.2 := by
  cases limit with
  | none => rfl
  | some k =>
    by_cases hk : k = 0 <;> simp [applyLimit, hk]

/-- The truly-guessed flag of a speculation round is 0 or 1. -/
theorem speculate_tg {σ : Type} (t : Option Node) (P : Predictor σ) (st : σ)
    (w : ℕ) (limit : Option ℕ) (data : List Char) (pos : ℕ) :
    (speculate t P st w limit data pos).2 = 0 ∨
    (speculate t P st w limit data pos).2 = 1 := by
  unfold speculate
  by_cases hpos : pos ≥ data.length
  · rw [if_pos hpos]
    exact Or.inl rfl
  · rw [if_neg hpos, applyLimit_snd]
    unfold speculateCore
    cases resultsMap t data pos (0 :: P.implicitlyPredict st w) 0 with
    | none => exact Or.inl rfl
    | some r0 =>
      by_cases hmem : r0.length ∈ P.implicitlyPredict st w
      · simp [hmem]
      · simp [hmem]

/-- When every chain entry carries a symbol, the output grows by exactly
the chain length. -/
theorem length_filterMap_symbol (chain : List SingleDecodingResult)
    (h : ∀ r ∈ chain, r.symbol.isSome) :
    (chain.filterMap (fun r => r.symbol)).length = chain.length := by
  induction chain with
  | nil => rfl
  | cons c rest ih =>
    obtain ⟨s, hs⟩ := Option.isSome_iff_exists.mp (h c (by simp))
    simp [List.filterMap_cons, hs, ih (fun r hr => h r (by simp [hr]))]

/-- The loop preserves the statistics invariants: `successes` is the sum of
the commits, equals the output length, commits and truly-guessed lists stay
in lock step, commits are ≥ 1 and truly-guessed flags are 0 or 1. -/
theorem specLoop_invariants {σ : Type} (t : Option Node) (P : Predictor σ)
    (w : ℕ) (limit : Option ℕ) (data : List Char) :
    ∀ (fuel : ℕ) (st : σ) (pos tries succ : ℕ)
      (outAcc commitsAcc tgsAcc : List ℕ) (prev : Option ℕ)
      (res : DecodeResult),
      succ = commitsAcc.sum → succ = outAcc.length →
      commitsAcc.length = tgsAcc.length →
      (∀ c ∈ commitsAcc, 1 ≤ c) → (∀ g ∈ tgsAcc, g = 0 ∨ g = 1) →
      specLoop t P w limit data fuel st pos tries succ outAcc commitsAcc
        tgsAcc prev = some res →
      res.successes = res.commits.sum ∧ res.successes = res.output.length ∧
      res.commits.length = res.tgs.length ∧ (∀ c ∈ res.commits, 1 ≤ c) ∧
      (∀ g ∈ res.tgs, g = 0 ∨ g = 1) := by
  intro fuel
  induction fuel with
  | zero =>
    intro st pos tries succ outAcc commitsAcc tgsAcc prev res _ _ _ _ _ h
    simp [specLoop] at h
  | succ f ih =>
    intro st pos tries succ outAcc commitsAcc tgsAcc prev res hsum hout hlen
      hc1 hg h
    unfold specLoop at h
    by_cases hpos : pos < data.length
    · rw [if_pos hpos] at h
      cases hsp : speculate t P st w limit data pos with
      | mk chain tg =>
        rw [hsp] at h
        cases chain with
        | nil =>
          obtain rfl : (⟨outAcc, succ, tries + (w + 1), commitsAcc, tgsAcc⟩ :
              DecodeResult) = res := by
            injection h
          exact ⟨hsum, hout, hlen, hc1, hg⟩
        | cons c0 crest =>
          have hall : ∀ r ∈ c0 :: crest, r.symbol.isSome := by
            intro r hr
            have hmem : r ∈ (speculate t P st w limit data pos).1 := by
              rw [hsp]; exact hr
            exact (speculate_chain_entries t P st w limit data pos r hmem).2.1
          have htg : tg = 0 ∨ tg = 1 := by
            have := speculate_tg t P st w limit data pos
            rw [hsp] at this
            exact this
          refine ih _ _ _ _ _ _ _ _ res ?_ ?_ ?_ ?_ ?_ h
          · simp [hsum]
          · rw [List.length_append, length_filterMap_symbol _ hall, hout]
          · simp [hlen]
          · intro c hc
            rcases List.mem_append.mp hc with hc' | hc'
            · exact hc1 c hc'
            · simp at hc'
              simp [hc']
          · intro g hgm
            rcases List.mem_append.mp hgm with hg' | hg'
            · exact hg g hg'
            · simp at hg'
              subst hg'
              exact htg
    · rw [if_neg hpos] at h
      obtain rfl : (⟨outAcc, succ, tries, commitsAcc, tgsAcc⟩ :
          DecodeResult) = res := by
        injection h
      exact ⟨hsum, hout, hlen, hc1, hg⟩

/-- **C10.** Whenever `SpeculativeDecoder.decode` returns
`(output, (successes, tries), commits_per_round, truly_guessed_per_round)`,
`successes` is the sum of the commits, `successes` is the number of output
symbols, the two per-round lists have the same length, every commits entry
is ≥ 1 and every truly-guessed entry is 0 or 1. -/
theorem specDecode_invariants (σ : Type) (P : Predictor σ) (st : σ) (w : ℕ)
    (limit : Option ℕ) (t : Option Node) (data : List Char)
    (res : DecodeResult) (h : specDecode t P w limit data st = some res) :
    res.successes = res.commits.sum ∧ res.successes = res.output.length ∧
    res.commits.length = res.tgs.length ∧ (∀ c ∈ res.commits, 1 ≤ c) ∧
    (∀ g ∈ res.tgs, g = 0 ∨ g = 1) :=
  specLoop_invariants t P w limit data (data.length + 1) st 0 0 0 [] [] []
    none res rfl rfl rfl (by simp) (by simp) h

/-- **C10 witness.** A concrete decode of `"01"` over a single-symbol tree
with a width-1 predictor: two commits in one round, one truly-guessed. -/
theorem specDecode_invariants_witness :
    specDecode (some (.mk (some 7) 1 none none))
      (⟨fun _ _ => [1], fun s _ => s⟩ : Predictor Unit) 1 none ['0', '1'] ()
      = some ⟨[7, 7], 2, 2, [2], [1]⟩ ∧
    (2 = [2].sum ∧ 2 = [7, 7].length ∧ [2].length = [1].length ∧
      (∀ c ∈ [2], 1 ≤ c) ∧ (∀ g ∈ [1], g = 0 ∨ g = 1)) :=
  ⟨by decide,
   specDecode_invariants Unit ⟨fun _ _ => [1], fun s _ => s⟩ () 1 none
    (some (.mk (some 7) 1 none none)) ['0', '1'] ⟨[7, 7], 2, 2, [2], [1]⟩
    (by decide)⟩

/-! ## Claim C1: the speculative decoder refines the serial decoder

The bridge is a *serial reading* of `HuffmanCode.decode` restarted at an
arbitrary bit position: `serialFrom t data pos` is the symbol list a serial
decoder produces from position `pos` (`none` on a malformed walk).  It is a
proof-side characterization — `hDecode_serialFrom` ties it to the source's
`hDecode` — and every speculation round is then shown to commit a prefix of
it. -/

/-- Greedy serial decoding of `bits` by repeated single-codeword walks from
the root, with fuel (each decoded symbol consumes ≥ 1 bit, so fuel
`bits.length + 1` is enough; see `serialListF_fuel`).  `none` when the walk
fails before the end of the bits (malformed stream). -/
def serialListF (root : Node) : ℕ → List Char → Option (List ℕ)
  | 0, _ => none
  | fuel + 1, bits =>
    match walkOne bits root 0 with
    | ⟨true, some s, L⟩ =>
      (serialListF root fuel (bits.drop L)).map (fun tl => s :: tl)
    | ⟨true, none, _⟩ => none
    | ⟨false, _, L⟩ => if L = bits.length then some [] else none

theorem serialListF_fuel (root : Node) :
    ∀ (f1 f2 : ℕ) (bits : List Char), bits.length < f1 → bits.length < f2 →
      serialListF root f1 bits = serialListF root f2 bits := by
  intro f1
  induction f1 with
  | zero => intro f2 bits h1 _; omega
  | succ g1 ih =>
    intro f2 bits h1 h2
    cases f2 with
    | zero => omega
    | succ g2 =>
      show serialListF root (g1 + 1) bits = serialListF root (g2 + 1) bits
      simp only [serialListF]
      cases hw : walkOne bits root 0 with
      | mk d sy L =>
        cases d with
        | false => rfl
        | true =>
          cases sy with
          | none => rfl
          | some s =>
            have hbits : bits ≠ [] := by
              rintro rfl
              simp [walkOne] at hw
            have hL : 1 ≤ L := by
              have := (walkOne_success bits root 0 (by rw [hw])).2
              rw [hw] at this
              simpa using this
            have hlen : (bits.drop L).length < g1 := by
              simp only [List.length_drop]
              have : 1 ≤ bits.length := by
                cases bits with
                | nil => exact absurd rfl hbits
                | cons _ _ => simp
              omega
            have hlen2 : (bits.drop L).length < g2 := by
              simp only [List.length_drop]
              have : 1 ≤ bits.length := by
                cases bits with
                | nil => exact absurd rfl hbits
                | cons _ _ => simp
              omega
            dsimp only
            rw [ih g2 (bits.drop L) hlen hlen2]

/-- Serial decoding of a bit list with always-sufficient fuel. -/
def serialList (root : Node) (bits : List Char) : Option (List ℕ) :=
  serialListF root (bits.length + 1) bits

/-- What a serial (non-speculative) decoder produces from position `pos` of
`data`: nothing for a missing tree, one symbol per remaining bit for a
single-symbol tree, and the greedy walk otherwise. -/
def serialFrom (t : Option Node) (data : List Char) (pos : ℕ) :
    Option (List ℕ) :=
  match t with
  | none => some []
  | some root =>
    match root.symbol with
    | some s => some (List.replicate (data.length - pos) s)
    | none => serialList root (data.drop pos)

/-- At or past the end of the data the serial remainder is empty. -/
theorem serialFrom_end (t : Option Node) (data : List Char) (pos : ℕ)
    (hpos : data.length ≤ pos) : serialFrom t data pos = some [] := by
  unfold serialFrom
  cases t with
  | none => rfl
  | some root =>
    cases hs : root.symbol with
    | some s =>
      simp only [hs]
      rw [Nat.sub_eq_zero_of_le hpos]
      rfl
    | none =>
      simp only [hs]
      rw [List.drop_eq_nil_of_le hpos]
      rfl

/-- One-step unfolding of `serialList` in terms of the first codeword
walk. -/
theorem serialList_eq (root : Node) (bits : List Char) :
    serialList root bits =
      match walkOne bits root 0 with
      | ⟨true, some s, L⟩ =>
        (serialList root (bits.drop L)).map (fun tl => s :: tl)
      | ⟨true, none, _⟩ => none
      | ⟨false, _, L⟩ => if L = bits.length then some [] else none := by
  cases hw : walkOne bits root 0 with
  | mk d sy L =>
    cases d with
    | false =>
      conv_lhs => unfold serialList serialListF
      rw [hw]
    | true =>
      cases sy with
      | none =>
        conv_lhs => unfold serialList serialListF
        rw [hw]
      | some s =>
        have hbits : bits ≠ [] := by
          rintro rfl
          simp [walkOne] at hw
        have hL : 1 ≤ L := by
          have h2 := (walkOne_success bits root 0 (by rw [hw])).2
          rw [hw] at h2
          simpa using h2
        have hlen : (bits.drop L).length < bits.length := by
          simp only [List.length_drop]
          have : 1 ≤ bits.length := by
            cases bits with
            | nil => exact absurd rfl hbits
            | cons _ _ => simp
          omega
        conv_lhs => unfold serialList serialListF
        rw [hw]
        dsimp only
        conv_rhs => unfold serialList
        rw [serialListF_fuel root bits.length ((bits.drop L).length + 1)
          (bits.drop L) hlen (by omega)]

/-- One serial step at an in-range position: if the single decode succeeds
it produces exactly the head of the serial remainder and advances to the
boundary of the tail; if it fails, the serial remainder is empty. -/
theorem serial_step (t : Option Node) (data : List Char) (pos : ℕ)
    (ss : List ℕ) (hpos : pos < data.length)
    (hser : serialFrom t data pos = some ss) :
    ((singleDecode t data pos).was_decoded = true →
      ∃ s L, singleDecode t data pos = ⟨true, some s, L⟩ ∧ 1 ≤ L ∧
        ss = s :: ss.tail ∧ serialFrom t data (pos + L) = some ss.tail) ∧
    ((singleDecode t data pos).was_decoded = false → ss = []) := by
  have hdata : data ≠ [] := by
    rintro rfl
    simp at hpos
  have hguard : ¬(data = [] ∨ pos ≥ data.length) := by
    push_neg
    exact ⟨hdata, hpos⟩
  cases t with
  | none =>
    unfold singleDecode
    rw [if_neg hguard]
    refine ⟨fun h => by simp [SDRfail] at h, fun _ => ?_⟩
    unfold serialFrom at hser
    injection hser with hser
    exact hser.symm
  | some root =>
    cases hsym : root.symbol with
    | some s =>
      unfold singleDecode
      rw [if_neg hguard]
      simp only [hsym]
      unfold serialFrom at hser
      dsimp only at hser
      rw [hsym] at hser
      injection hser with hser
      refine ⟨fun _ => ⟨s, 1, rfl, le_refl 1, ?_, ?_⟩, fun h => by simp at h⟩
      · rw [← hser]
        have h1 : data.length - pos = (data.length - (pos + 1)) + 1 := by omega
        rw [h1, List.replicate_succ]
        rfl
      · unfold serialFrom
        dsimp only
        rw [hsym, ← hser]
        have h1 : data.length - pos = (data.length - (pos + 1)) + 1 := by omega
        rw [h1, List.replicate_succ]
        rfl
    | none =>
      unfold singleDecode
      rw [if_neg hguard]
      simp only [hsym]
      unfold serialFrom at hser
      dsimp only at hser
      rw [hsym] at hser
      rw [serialList_eq] at hser
      cases hw : walkOne (data.drop pos) root 0 with
      | mk d sy L =>
        rw [hw] at hser
        cases d with
        | false =>
          refine ⟨fun h => by simp at h, fun _ => ?_⟩
          dsimp only at hser
          by_cases hL : L = (data.drop pos).length
          · rw [if_pos hL] at hser
            injection hser with hser
            exact hser.symm
          · rw [if_neg hL] at hser
            simp at hser
        | true =>
          cases sy with
          | none =>
            exfalso
            have h1 := (walkOne_success (data.drop pos) root 0 (by rw [hw])).1
            rw [hw] at h1
            simp at h1
          | some s =>
            refine ⟨fun _ => ?_, fun h => by simp at h⟩
            have hL : 1 ≤ L := by
              have h2 := (walkOne_success (data.drop pos) root 0 (by rw [hw])).2
              rw [hw] at h2
              simpa using h2
            dsimp only at hser
            cases htl : serialList root ((data.drop pos).drop L) with
            | none =>
              rw [htl] at hser
              simp at hser
            | some tl =>
              rw [htl] at hser
              simp only [Option.map_some'] at hser
              injection hser with hser
              subst hser
              refine ⟨s, L, rfl, hL, rfl, ?_⟩
              unfold serialFrom
              dsimp only
              rw [hsym]
              have hdd : (data.drop pos).drop L = data.drop (pos + L) := by
                rw [List.drop_drop, Nat.add_comm]
              rw [← hdd, htl]
              rfl

/-- `HuffmanCode.decode`'s walk versus the single decoder's walk: from the
same node, on a valid bit list, a successful single walk corresponds to the
serial walk consuming the same bits and emitting the same symbol, and a
failed single walk means the serial walk either exhausted the bits
(returning what it has) or raised. -/
theorem hDecodeGo_walk (root : Node) :
    ∀ (bits : List Char) (cur : Node) (acc : List ℕ),
      (∀ c ∈ bits, c = '0' ∨ c = '1') →
      ((∀ s L, walkOne bits cur 0 = ⟨true, some s, L⟩ →
        hDecodeGo root bits cur acc =
          hDecodeGo root (bits.drop L) root (s :: acc)) ∧
       (∀ sy L, walkOne bits cur 0 = ⟨false, sy, L⟩ →
        (L = bits.length ∧ hDecodeGo root bits cur acc = .ok acc.reverse) ∨
        (∃ e, hDecodeGo root bits cur acc = .error e))) := by
  intro bits
  induction bits with
  | nil =>
    intro cur acc _
    constructor
    · intro s L h
      simp [walkOne] at h
    · intro sy L h
      left
      have hL : 0 = L := by
        have := congrArg SingleDecodingResult.length h
        simpa [walkOne] using this
      exact ⟨by simp [← hL], rfl⟩
  | cons x rest ih =>
    intro cur acc hvalid
    have hvr : ∀ c ∈ rest, c = '0' ∨ c = '1' :=
      fun c hc => hvalid c (by simp [hc])
    rcases hvalid x (by simp) with hx | hx
    all_goals subst hx
    -- the '0' branch
    · constructor
      · intro s L h
        rw [walkOne, if_pos rfl] at h
        cases hcl : cur.left with
        | none => rw [hcl] at h; simp at h
        | some nxt =>
          rw [hcl] at h
          dsimp only at h
          cases hs : nxt.symbol with
          | some s' =>
            rw [hs] at h
            dsimp only at h
            injection h with _ h2 h3
            injection h2 with h2
            subst h2
            have hL : L = 1 := by omega
            subst hL
            rw [hDecodeGo, if_pos rfl, hcl]
            dsimp only
            rw [hs]
            rfl
          | none =>
            rw [hs] at h
            dsimp only at h
            simp only [Nat.zero_add] at h
            rcases hr0 : walkOne rest nxt 0 with ⟨b, os, l0⟩
            have hc := walkOne_consumed rest nxt 1
            rw [h, hr0] at hc
            dsimp only at hc
            obtain ⟨hb, hos, hl⟩ := hc
            have hstep := (ih nxt acc hvr).1 s l0
              (by rw [hr0, ← hb, ← hos])
            rw [hDecodeGo, if_pos rfl, hcl]
            dsimp only
            rw [hs]
            dsimp only
            rw [hstep]
            have hL' : L = l0 + 1 := by omega
            rw [hL', List.drop_succ_cons]
      · intro sy L h
        rw [walkOne, if_pos rfl] at h
        cases hcl : cur.left with
        | none =>
          right
          rw [hDecodeGo, if_pos rfl, hcl]
          exact ⟨_, rfl⟩
        | some nxt =>
          rw [hcl] at h
          dsimp only at h
          cases hs : nxt.symbol with
          | some s' => rw [hs] at h; simp at h
          | none =>
            rw [hs] at h
            dsimp only at h
            simp only [Nat.zero_add] at h
            rcases hr0 : walkOne rest nxt 0 with ⟨b, os, l0⟩
            have hc := walkOne_consumed rest nxt 1
            rw [h, hr0] at hc
            dsimp only at hc
            obtain ⟨hb, hos, hl⟩ := hc
            rcases (ih nxt acc hvr).2 os l0 (by rw [hr0, ← hb, ← hos]) with
              ⟨hlen, hok⟩ | ⟨e, he⟩
            · left
              refine ⟨by simp [hlen]; omega, ?_⟩
              rw [hDecodeGo, if_pos rfl, hcl]
              dsimp only
              rw [hs]
              dsimp only
              rw [hok]
            · right
              refine ⟨e, ?_⟩
              rw [hDecodeGo, if_pos rfl, hcl]
              dsimp only
              rw [hs]
              dsimp only
              rw [he]
    -- the '1' branch
    · have hne : ('1' : Char) ≠ '0' := by decide
      constructor
      · intro s L h
        rw [walkOne, if_neg hne, if_pos rfl] at h
        cases hcr : cur.right with
        | none => rw [hcr] at h; simp at h
        | some nxt =>
          rw [hcr] at h
          dsimp only at h
          cases hs : nxt.symbol with
          | some s' =>
            rw [hs] at h
            dsimp only at h
            injection h with _ h2 h3
            injection h2 with h2
            subst h2
            have hL : L = 1 := by omega
            subst hL
            rw [hDecodeGo, if_neg hne, hcr]
            dsimp only
            rw [hs]
            rfl
          | none =>
            rw [hs] at h
            dsimp only at h
            simp only [Nat.zero_add] at h
            rcases hr0 : walkOne rest nxt 0 with ⟨b, os, l0⟩
            have hc := walkOne_consumed rest nxt 1
            rw [h, hr0] at hc
            dsimp only at hc
            obtain ⟨hb, hos, hl⟩ := hc
            have hstep := (ih nxt acc hvr).1 s l0
              (by rw [hr0, ← hb, ← hos])
            rw [hDecodeGo, if_neg hne, hcr]
            dsimp only
            rw [hs]
            dsimp only
            rw [hstep]
            have hL' : L = l0 + 1 := by omega
            rw [hL', List.drop_succ_cons]
      · intro sy L h
        rw [walkOne, if_neg hne, if_pos rfl] at h
        cases hcr : cur.right with
        | none =>
          right
          rw [hDecodeGo, if_neg hne, hcr]
          exact ⟨_, rfl⟩
        | some nxt =>
          rw [hcr] at h
          dsimp only at h
          cases hs : nxt.symbol with
          | some s' => rw [hs] at h; simp at h
          | none =>
            rw [hs] at h
            dsimp only at h
            simp only [Nat.zero_add] at h
            rcases hr0 : walkOne rest nxt 0 with ⟨b, os, l0⟩
            have hc := walkOne_consumed rest nxt 1
            rw [h, hr0] at hc
            dsimp only at hc
            obtain ⟨hb, hos, hl⟩ := hc
            rcases (ih nxt acc hvr).2 os l0 (by rw [hr0, ← hb, ← hos]) with
              ⟨hlen, hok⟩ | ⟨e, he⟩
            · left
              refine ⟨by simp [hlen]; omega, ?_⟩
              rw [hDecodeGo, if_neg hne, hcr]
              dsimp only
              rw [hs]
              dsimp only
              rw [hok]
            · right
              refine ⟨e, ?_⟩
              rw [hDecodeGo, if_neg hne, hcr]
              dsimp only
              rw [hs]
              dsimp only
              rw [he]

/-- A successful serial walk loop from the root is exactly the greedy
serial decoding. -/
theorem hDecodeGo_serialList (root : Node) :
    ∀ (n : ℕ) (bits : List Char), bits.length ≤ n →
      (∀ c ∈ bits, c = '0' ∨ c = '1') →
      ∀ (acc out : List ℕ), hDecodeGo root bits root acc = .ok out →
      ∃ out', serialList root bits = some out' ∧
        out = acc.reverse ++ out' := by
  intro n
  induction n with
  | zero =>
    intro bits hlen _ acc out h
    have hnil : bits = [] := by
      cases bits with
      | nil => rfl
      | cons _ _ => simp at hlen
    subst hnil
    simp only [hDecodeGo] at h
    injection h with h
    exact ⟨[], rfl, by simp [← h]⟩
  | succ n ihn =>
    intro bits hlen hvalid acc out h
    rcases hw : walkOne bits root 0 with ⟨b, os, L⟩
    cases b with
    | true =>
      cases os with
      | none =>
        exfalso
        have h1 := (walkOne_success bits root 0 (by rw [hw])).1
        rw [hw] at h1
        simp at h1
      | some s =>
        have hbits : bits ≠ [] := by
          rintro rfl
          simp [walkOne] at hw
        have hL : 1 ≤ L := by
          have h2 := (walkOne_success bits root 0 (by rw [hw])).2
          rw [hw] at h2
          simpa using h2
        have hstep := (hDecodeGo_walk root bits root acc hvalid).1 s L hw
        rw [hstep] at h
        have hlen' : (bits.drop L).length ≤ n := by
          simp only [List.length_drop]
          have : 1 ≤ bits.length := by
            cases bits with
            | nil => exact absurd rfl hbits
            | cons _ _ => simp
          omega
        obtain ⟨out', hser', hout⟩ := ihn (bits.drop L) hlen'
          (fun c hc => hvalid c (List.mem_of_mem_drop hc)) (s :: acc) out h
        refine ⟨s :: out', ?_, ?_⟩
        · rw [serialList_eq, hw]
          dsimp only
          rw [hser']
          rfl
        · rw [hout]
          simp
    | false =>
      rcases (hDecodeGo_walk root bits root acc hvalid).2 os L hw with
        ⟨hL, hok⟩ | ⟨e, he⟩
      · rw [hok] at h
        injection h with h
        refine ⟨[], ?_, by simp [← h]⟩
        rw [serialList_eq, hw]
        dsimp only
        rw [if_pos hL]
      · rw [he] at h
        simp at h

/-- A successful non-speculative `HuffmanCode.decode` on a valid bit string
is the serial reading from position 0. -/
theorem hDecode_serialFrom (t : Option Node) (data : List Char)
    (out : List ℕ) (hvalid : ∀ c ∈ data, c = '0' ∨ c = '1')
    (h : hDecode data t = .ok out) : serialFrom t data 0 = some out := by
  cases t with
  | none =>
    unfold hDecode at h
    injection h with h
    unfold serialFrom
    rw [← h]
  | some root =>
    unfold hDecode at h
    dsimp only at h
    by_cases hd : data = []
    · rw [if_pos hd] at h
      injection h with h
      subst hd
      unfold serialFrom
      dsimp only
      cases hs : root.symbol with
      | some s => simp [← h]
      | none => simp [serialList, serialListF, walkOne, ← h]
    · rw [if_neg hd] at h
      cases hs : root.symbol with
      | some s =>
        rw [hs] at h
        injection h with h
        unfold serialFrom
        dsimp only
        rw [hs, Nat.sub_zero]
        dsimp only
        rw [h]
      | none =>
        rw [hs] at h
        obtain ⟨out', hser, hout⟩ := hDecodeGo_serialList root data.length
          data (le_refl _) hvalid [] out h
        unfold serialFrom
        dsimp only
        rw [hs, List.drop_zero, hser, hout]
        simp

/-- A list of results whose symbols are `some`-images filters to exactly
those values. -/
theorem filterMap_eq_of_map_eq {l : List SingleDecodingResult} :
    ∀ {l' : List ℕ}, l.map (fun r => r.symbol) = l'.map some →
      l.filterMap (fun r => r.symbol) = l' := by
  induction l with
  | nil =>
    intro l' h
    cases l' with
    | nil => rfl
    | cons _ _ => simp at h
  | cons a as ih =>
    intro l' h
    cases l' with
    | nil => simp at h
    | cons b bs =>
      simp only [List.map_cons, List.cons.injEq] at h
      obtain ⟨h1, h2⟩ := h
      simp [List.filterMap_cons, h1, ih h2]

/-- The chain anchored at a serial boundary commits a prefix of the serial
remainder, and its total length lands on the next serial boundary. -/
theorem chain_serial (t : Option Node) (data : List Char) (pos : ℕ)
    (results : ℕ → Option SingleDecodingResult)
    (hres : ∀ k r, results k = some r → r = singleDecode t data (pos + k) ∧
      r.was_decoded = true ∧ pos + k < data.length) :
    ∀ (fuel o : ℕ) (ss : List ℕ), serialFrom t data (pos + o) = some ss →
      (chainGo results fuel o).map (fun r => r.symbol) =
        (ss.take (chainGo results fuel o).length).map some ∧
      serialFrom t data
        (pos + o + ((chainGo results fuel o).map (fun r => r.length)).sum) =
        some (ss.drop (chainGo results fuel o).length) := by
  intro fuel
  induction fuel with
  | zero =>
    intro o ss hser
    simp [chainGo, hser]
  | succ f ih =>
    intro o ss hser
    cases hro : results o with
    | none =>
      have hch : chainGo results (f + 1) o = [] := by
        conv_lhs => unfold chainGo
        rw [hro]
      rw [hch]
      simp [hser]
    | some r =>
      obtain ⟨hr_eq, hdec, hlt⟩ := hres o r hro
      rw [hr_eq] at hdec
      obtain ⟨s, L, hsd, hL, hss, hser'⟩ :=
        (serial_step t data (pos + o) ss hlt hser).1 hdec
      have hr : r = ⟨true, some s, L⟩ := hr_eq.trans hsd
      have hrl : r.length = L := by rw [hr]
      have hch : chainGo results (f + 1) o =
          r :: chainGo results f (o + r.length) := by
        conv_lhs => unfold chainGo
        rw [hro]
      have hser'' : serialFrom t data (pos + (o + r.length)) = some ss.tail := by
        have harith : pos + (o + r.length) = pos + o + L := by
          rw [hrl]; omega
        rw [harith]
        exact hser'
      obtain ⟨ihm, ihs⟩ := ih (o + r.length) ss.tail hser''
      rw [hch]
      constructor
      · simp only [List.map_cons, List.length_cons]
        rw [ihm]
        conv_rhs => rw [hss]
        rw [List.take_succ_cons, List.map_cons, hr]
      · simp only [List.map_cons, List.sum_cons, List.length_cons]
        have harith : pos + o +
            (r.length + ((chainGo results f (o + r.length)).map
              (fun r => r.length)).sum) =
            pos + (o + r.length) + ((chainGo results f (o + r.length)).map
              (fun r => r.length)).sum := by
          omega
        rw [harith, ihs]
        conv_rhs => rw [hss]
        rw [List.drop_succ_cons]

/-- A speculation round at a serial boundary commits a prefix of the
serial remainder and advances to the next serial boundary. -/
theorem speculate_serial {σ : Type} (t : Option Node) (P : Predictor σ)
    (st : σ) (w : ℕ) (limit : Option ℕ) (data : List Char) (pos : ℕ)
    (ss : List ℕ) (hpos : pos < data.length)
    (hser : serialFrom t data pos = some ss) :
    (speculate t P st w limit data pos).1.map (fun r => r.symbol) =
      (ss.take (speculate t P st w limit data pos).1.length).map some ∧
    serialFrom t data
      (pos + ((speculate t P st w limit data pos).1.map
        (fun r => r.length)).sum) =
      some (ss.drop (speculate t P st w limit data pos).1.length) := by
  obtain ⟨F, hF⟩ := speculate_eq_chainGo t P st w limit data pos hpos
  rw [hF]
  have hc := chain_serial t data pos
    (resultsMap t data pos (0 :: P.implicitlyPredict st w))
    (fun k r h => resultsMap_spec t data pos _ k r h) F 0 ss
    (by rw [Nat.add_zero]; exact hser)
  simpa using hc

/-- The decode loop appends exactly the serial remainder at its current
boundary to the accumulated output. -/
theorem specLoop_serial {σ : Type} (t : Option Node) (P : Predictor σ)
    (w : ℕ) (limit : Option ℕ) (data : List Char) :
    ∀ (fuel : ℕ) (st : σ) (pos tries succ : ℕ)
      (outAcc cAcc tgAcc : List ℕ) (prev : Option ℕ) (ss : List ℕ),
      data.length - pos < fuel → serialFrom t data pos = some ss →
      ∃ res, specLoop t P w limit data fuel st pos tries succ outAcc cAcc
        tgAcc prev = some res ∧ res.output = outAcc ++ ss := by
  intro fuel
  induction fuel with
  | zero =>
    intro st pos tries succ outAcc cAcc tgAcc prev ss hfuel _
    omega
  | succ f ih =>
    intro st pos tries succ outAcc cAcc tgAcc prev ss hfuel hser
    by_cases hpos : pos < data.length
    · cases hsp : speculate t P st w limit data pos with
      | mk chain tg =>
        cases chain with
        | nil =>
          have hnd : (singleDecode t data pos).was_decoded = false := by
            rcases hb : (singleDecode t data pos).was_decoded with _ | _
            · rfl
            · exfalso
              exact speculate_nonempty_of_decoded t P st w limit data pos
                hpos hb (by rw [hsp])
          have hss : ss = [] := (serial_step t data pos ss hpos hser).2 hnd
          refine ⟨⟨outAcc, succ, tries + (w + 1), cAcc, tgAcc⟩, ?_, ?_⟩
          · unfold specLoop
            rw [if_pos hpos, hsp]
          · simp [hss]
        | cons c0 crest =>
          have hsp1 : (speculate t P st w limit data pos).1 = c0 :: crest := by
            rw [hsp]
          have hln : 1 ≤ c0.length := by
            have hmem : c0 ∈ (speculate t P st w limit data pos).1 := by
              rw [hsp1]
              exact List.mem_cons_self _ _
            exact (speculate_chain_entries t P st w limit data pos c0 hmem).2.2
          have hsl := speculate_serial t P st w limit data pos ss hpos hser
          rw [hsp1] at hsl
          obtain ⟨hmap, hnext⟩ := hsl
          have hfm : (c0 :: crest).filterMap (fun r => r.symbol) =
              ss.take (c0 :: crest).length := filterMap_eq_of_map_eq hmap
          have htot : 1 ≤ ((c0 :: crest).map (fun r => r.length)).sum := by
            simp only [List.map_cons, List.sum_cons]
            omega
          obtain ⟨res, hres, hout⟩ := ih
            ((c0 :: crest).foldl (fun s r => match r.symbol with
              | some _ => P.feed s r.length
              | none => s) st)
            (pos + ((c0 :: crest).map (fun r => r.length)).sum)
            (tries + (w + 1)) (succ + (c0 :: crest).length)
            (outAcc ++ ss.take (c0 :: crest).length)
            (cAcc ++ [(c0 :: crest).length]) (tgAcc ++ [tg])
            (match c0.symbol with | some s => some s | none => prev)
            (ss.drop (c0 :: crest).length)
            (by omega) hnext
          refine ⟨res, ?_, ?_⟩
          · unfold specLoop
            rw [if_pos hpos, hsp]
            dsimp only
            rw [hfm]
            exact hres
          · rw [hout, List.append_assoc, List.take_append_drop]
    · have hss : ss = [] := by
        have := serialFrom_end t data pos (by omega)
        rw [this] at hser
        injection hser with hser
        exact hser.symm
      refine ⟨⟨outAcc, succ, tries, cAcc, tgAcc⟩, ?_, ?_⟩
      · unfold specLoop
        rw [if_neg hpos]
      · simp [hss]

/-- **C1.** For every decode tree built from a code table, every predictor,
every speculation width `w ≥ 1` and every chain-length limit, and for every
bit string decodable by that tree, the committed symbol sequence of
`SpeculativeDecoder.decode` equals the output of the non-speculative
`HuffmanCode.decode` — regardless of what lengths the predictor returns. -/
theorem speculative_decode_refines (σ : Type) (P : Predictor σ) (st : σ)
    (w : ℕ) (hw : 1 ≤ w) (limit : Option ℕ) (codes : List (ℕ × List Char))
    (data : List Char) (out : List ℕ)
    (hvalid : ∀ c ∈ data, c = '0' ∨ c = '1')
    (hdec : hDecode data (buildDecodingTree codes) = .ok out) :
    ∃ res, specDecode (buildDecodingTree codes) P w limit data st = some res ∧
      res.output = out := by
  have hser := hDecode_serialFrom (buildDecodingTree codes) data out hvalid hdec
  obtain ⟨res, hres, hout⟩ := specLoop_serial (buildDecodingTree codes) P w
    limit data (data.length + 1) st 0 0 0 [] [] [] none out (by omega) hser
  exact ⟨res, hres, by simpa using hout⟩

/-- **C1 witness.** The two-symbol code table `{65 ↦ "0", 66 ↦ "10"}`, the
decodable bit string `"0100"`, and a width-1 predictor that always predicts
length 1: the speculative decode output is the serial output `[65, 66, 65]`. -/
theorem speculative_decode_refines_witness :
    (∀ c ∈ ['0', '1', '0', '0'], c = '0' ∨ c = '1') ∧
    hDecode ['0', '1', '0', '0']
      (buildDecodingTree [(65, ['0']), (66, ['1', '0'])]) =
      .ok [65, 66, 65] ∧
    ∃ res, specDecode (buildDecodingTree [(65, ['0']), (66, ['1', '0'])])
      (⟨fun _ _ => [1], fun s _ => s⟩ : Predictor Unit) 1 none
      ['0', '1', '0', '0'] () = some res ∧ res.output = [65, 66, 65] :=
  ⟨by decide, rfl,
   speculative_decode_refines Unit ⟨fun _ _ => [1], fun s _ => s⟩ () 1
    (by norm_num) none [(65, ['0']), (66, ['1', '0'])] ['0', '1', '0', '0']
    [65, 66, 65] (by decide) rfl⟩

/-! ## Claim C2: the Huffman encode/decode round-trip

`build_huffman_tree` uses Python's `heapq`; the heap operations
(`heapify`, `heappush`, `heappop` with their `_siftup`/`_siftdown`) are
embedded below on `List Node`, indexing with `getD` (every reachable index
is in range, as the multiset/length lemmas show).  Nodes compare by
frequency only (`Node.__lt__`). -/

/-- Placeholder node for out-of-range `getD` reads (never reached on the
in-range indices the algorithm uses). -/
def dNode : Node := .mk none 0 none none

/-- `heapq._siftdown(heap, startpos, pos)`'s loop: bubble `newitem` towards
the root, shifting larger parents down, then place it. -/
def siftdownGo (heap : List Node) (startpos pos : ℕ) (newitem : Node) :
    List Node :=
  if h : startpos < pos then
    if newitem.frequency < (heap.getD ((pos - 1) / 2) dNode).frequency then
      siftdownGo (heap.set pos (heap.getD ((pos - 1) / 2) dNode)) startpos
        ((pos - 1) / 2) newitem
    else heap.set pos newitem
  else heap.set pos newitem
termination_by pos
decreasing_by
  omega

/-- `heapq._siftdown(heap, startpos, pos)`: reads `newitem = heap[pos]`
then runs the loop. -/
def siftdown (heap : List Node) (startpos pos : ℕ) : List Node :=
  siftdownGo heap startpos pos (heap.getD pos dNode)

/-- The child chosen by `heapq._siftup`: the left child `2·pos+1`, or the
right child when it exists and the left is not smaller. -/
def siftupChild (heap : List Node) (endpos pos : ℕ) : ℕ :=
  if 2 * pos + 2 < endpos ∧
      ¬ ((heap.getD (2 * pos + 1) dNode).frequency <
         (heap.getD (2 * pos + 2) dNode).frequency)
  then 2 * pos + 2 else 2 * pos + 1

theorem siftupChild_gt (heap : List Node) (endpos pos : ℕ) :
    pos < siftupChild heap endpos pos := by
  unfold siftupChild
  split <;> omega

theorem siftupChild_lt (heap : List Node) (endpos pos : ℕ)
    (h : 2 * pos + 1 < endpos) : siftupChild heap endpos pos < endpos := by
  unfold siftupChild
  split
  · omega
  · omega

/-- `heapq._siftup(heap, pos)`'s loop: move the smaller child up until a
childless position is reached, place `newitem` there and sift it down. -/
def siftupGo (heap : List Node) (startpos endpos pos : ℕ) (newitem : Node) :
    List Node :=
  if h : 2 * pos + 1 < endpos then
    siftupGo (heap.set pos (heap.getD (siftupChild heap endpos pos) dNode))
      startpos endpos (siftupChild heap endpos pos) newitem
  else siftdown (heap.set pos newitem) startpos pos
termination_by endpos - pos
decreasing_by
  have h1 := siftupChild_gt heap endpos pos
  have h2 := siftupChild_lt heap endpos pos h
  omega

/-- `heapq._siftup(heap, pos)`: `endpos = len(heap)`, `startpos = pos`,
`newitem = heap[pos]`. -/
def siftup (heap : List Node) (pos : ℕ) : List Node :=
  siftupGo heap pos heap.length pos (heap.getD pos dNode)

/-- `heapq.heappush`: append, then sift the new last element down towards
the root. -/
def heappush (heap : List Node) (item : Node) : List Node :=
  siftdown (heap ++ [item]) 0 heap.length

/-- `heapq.heappop`: pop the last element; if the heap is still non-empty,
return the old root after writing the last element there and sifting it
up.  `none` models the `IndexError` on an empty heap. -/
def heappop (heap : List Node) : Option (Node × List Node) :=
  match heap.getLast? with
  | none => none
  | some lastelt =>
    match heap.dropLast with
    | [] => some (lastelt, [])
    | d :: ds =>
      some ((d :: ds).getD 0 dNode, siftup ((d :: ds).set 0 lastelt) 0)

/-- `heapq.heapify`: `for i in reversed(range(n // 2)): _siftup(x, i)`. -/
def heapify (heap : List Node) : List Node :=
  ((List.range (heap.length / 2)).reverse).foldl (fun h i => siftup h i) heap

/-! ### The heap operations permute the heap -/

theorem getD_set_ne (l : List Node) (i j : ℕ) (a : Node) (hne : i ≠ j)
    (hj : j < l.length) : (l.set i a).getD j dNode = l.getD j dNode := by
  rw [List.getD_eq_getElem _ _ (by simpa using hj),
    List.getD_eq_getElem _ _ hj]
  exact List.getElem_set_ne hne _

theorem getD_set_self (l : List Node) (i : ℕ) (a : Node) (hi : i < l.length) :
    (l.set i a).getD i dNode = a := by
  rw [List.getD_eq_getElem _ _ (by simpa using hi)]
  exact List.getElem_set_self ..

theorem ms_set (l : List Node) : ∀ (n : ℕ) (a : Node), n < l.length →
    (l.set n a : Multiset Node) + {l.getD n dNode} =
      (l : Multiset Node) + {a} := by
  induction l with
  | nil => intro n a h; simp at h
  | cons x xs ih =>
    intro n a h
    cases n with
    | zero =>
      simp only [List.set, List.getD_cons_zero]
      rw [← Multiset.cons_coe, ← Multiset.cons_coe, add_comm, add_comm _ ({a} : Multiset Node),
        Multiset.singleton_add, Multiset.singleton_add]
      exact Multiset.cons_swap x a (↑xs)
    | succ n =>
      simp only [List.set, List.getD_cons_succ]
      rw [← Multiset.cons_coe, ← Multiset.cons_coe, Multiset.cons_add,
        Multiset.cons_add]
      congr 1
      exact ih n a (by simpa using h)

/-- Writing `l[j]` at position `i` and then `b` at position `j` permutes
to writing `b` at `i` directly. -/
theorem ms_set_transpose (l : List Node) (i j : ℕ) (b : Node)
    (hi : i < l.length) (hj : j < l.length) (hne : i ≠ j) :
    ((l.set i (l.getD j dNode)).set j b : Multiset Node) =
      (l.set i b : Multiset Node) := by
  have hglen : j < (l.set i (l.getD j dNode)).length := by simpa using hj
  have h1 := ms_set (l.set i (l.getD j dNode)) j b hglen
  rw [getD_set_ne l i j _ hne hj] at h1
  have h2 := ms_set l i (l.getD j dNode) hi
  have h3 := ms_set l i b hi
  have key : ((l.set i (l.getD j dNode)).set j b : Multiset Node) +
      ({l.getD j dNode} + {l.getD i dNode}) =
      (l.set i b : Multiset Node) + ({l.getD j dNode} + {l.getD i dNode}) := by
    calc ((l.set i (l.getD j dNode)).set j b : Multiset Node) +
        ({l.getD j dNode} + {l.getD i dNode})
        = (((l.set i (l.getD j dNode)).set j b : Multiset Node) +
            {l.getD j dNode}) + {l.getD i dNode} := by rw [add_assoc]
      _ = ((l.set i (l.getD j dNode) : Multiset Node) + {b}) +
            {l.getD i dNode} := by rw [h1]
      _ = ((l.set i (l.getD j dNode) : Multiset Node) +
            {l.getD i dNode}) + {b} := by rw [add_right_comm]
      _ = ((l : Multiset Node) + {l.getD j dNode}) + {b} := by rw [h2]
      _ = ((l : Multiset Node) + {b}) + {l.getD j dNode} := by
            rw [add_right_comm]
      _ = ((l.set i b : Multiset Node) + {l.getD i dNode}) +
            {l.getD j dNode} := by rw [h3]
      _ = (l.set i b : Multiset Node) +
            ({l.getD j dNode} + {l.getD i dNode}) := by
            rw [add_assoc, add_comm ({l.getD i dNode} : Multiset Node)]
  exact add_right_cancel key

theorem siftdownGo_length (pos : ℕ) :
    ∀ (heap : List Node) (startpos : ℕ) (newitem : Node),
      (siftdownGo heap startpos pos newitem).length = heap.length := by
  induction pos using Nat.strong_induction_on with
  | _ pos ih =>
    intro heap startpos newitem
    rw [siftdownGo]
    split
    · split
      · rw [ih ((pos - 1) / 2) (by omega)]
        simp
      · simp
    · simp

theorem siftdownGo_ms (pos : ℕ) :
    ∀ (heap : List Node) (startpos : ℕ) (newitem : Node), pos < heap.length →
      (siftdownGo heap startpos pos newitem : Multiset Node) =
        (heap.set pos newitem : Multiset Node) := by
  induction pos using Nat.strong_induction_on with
  | _ pos ih =>
    intro heap startpos newitem hpos
    rw [siftdownGo]
    split
    · split
      · rename_i hlt _
        rw [ih ((pos - 1) / 2) (by omega) _ startpos newitem (by simp; omega)]
        exact ms_set_transpose heap pos ((pos - 1) / 2) newitem hpos
          (by omega) (by omega)
      · rfl
    · rfl

theorem siftdown_length (heap : List Node) (startpos pos : ℕ) :
    (siftdown heap startpos pos).length = heap.length :=
  siftdownGo_length pos heap startpos _

theorem siftdown_ms (heap : List Node) (startpos pos : ℕ)
    (hpos : pos < heap.length) :
    (siftdown heap startpos pos : Multiset Node) = (heap : Multiset Node) := by
  unfold siftdown
  rw [siftdownGo_ms pos heap startpos _ hpos]
  have := ms_set heap pos (heap.getD pos dNode) hpos
  exact add_right_cancel this

theorem siftupGo_length (k : ℕ) :
    ∀ (heap : List Node) (startpos endpos pos : ℕ) (newitem : Node),
      endpos - pos = k →
      (siftupGo heap startpos endpos pos newitem).length = heap.length := by
  induction k using Nat.strong_induction_on with
  | _ k ih =>
    intro heap startpos endpos pos newitem hk
    rw [siftupGo]
    split
    · rename_i h
      have h1 := siftupChild_gt heap endpos pos
      have h2 := siftupChild_lt heap endpos pos h
      rw [ih (endpos - siftupChild heap endpos pos) (by omega) _ startpos
        endpos _ newitem rfl]
      simp
    · rw [siftdown_length]
      simp

theorem siftupGo_ms (k : ℕ) :
    ∀ (heap : List Node) (startpos endpos pos : ℕ) (newitem : Node),
      endpos - pos = k → pos < heap.length → endpos ≤ heap.length →
      (siftupGo heap startpos endpos pos newitem : Multiset Node) =
        (heap.set pos newitem : Multiset Node) := by
  induction k using Nat.strong_induction_on with
  | _ k ih =>
    intro heap startpos endpos pos newitem hk hpos hend
    rw [siftupGo]
    split
    · rename_i h
      have h1 := siftupChild_gt heap endpos pos
      have h2 := siftupChild_lt heap endpos pos h
      rw [ih (endpos - siftupChild heap endpos pos) (by omega) _ startpos
        endpos _ newitem rfl (by simp; omega) (by simp; omega)]
      have := ms_set_transpose heap pos (siftupChild heap endpos pos) newitem
        hpos (by omega) (by omega)
      exact this
    · unfold siftdown
      rw [getD_set_self heap pos newitem hpos]
      rw [siftdownGo_ms pos _ startpos newitem (by simpa using hpos)]
      rw [List.set_set]

theorem siftup_length (heap : List Node) (pos : ℕ) :
    (siftup heap pos).length = heap.length :=
  siftupGo_length _ heap pos heap.length pos _ rfl

theorem siftup_ms (heap : List Node) (pos : ℕ) (hpos : pos < heap.length) :
    (siftup heap pos : Multiset Node) = (heap : Multiset Node) := by
  unfold siftup
  rw [siftupGo_ms _ heap pos heap.length pos _ rfl hpos (le_refl _)]
  have := ms_set heap pos (heap.getD pos dNode) hpos
  exact add_right_cancel this

theorem heappush_ms (heap : List Node) (item : Node) :
    (heappush heap item : Multiset Node) =
      item ::ₘ (heap : Multiset Node) := by
  unfold heappush
  rw [siftdown_ms _ 0 heap.length (by simp)]
  simp [add_comm]

theorem heappush_length (heap : List Node) (item : Node) :
    (heappush heap item).length = heap.length + 1 := by
  unfold heappush
  rw [siftdown_length]
  simp

theorem heappop_ms (heap : List Node) (x : Node) (h' : List Node)
    (h : heappop heap = some (x, h')) :
    (heap : Multiset Node) = x ::ₘ (h' : Multiset Node) := by
  unfold heappop at h
  cases hl : heap.getLast? with
  | none => rw [hl] at h; simp at h
  | some lastelt =>
    rw [hl] at h
    have hne : heap ≠ [] := by
      rintro rfl
      simp at hl
    have hlast : heap.getLast hne = lastelt := by
      rw [List.getLast?_eq_getLast heap hne] at hl
      injection hl
    have hsplit : heap.dropLast ++ [lastelt] = heap := by
      rw [← hlast]
      exact List.dropLast_append_getLast hne
    cases hd : heap.dropLast with
    | nil =>
      rw [hd] at h
      simp only [Option.some.injEq, Prod.mk.injEq] at h
      obtain ⟨rfl, rfl⟩ := h
      rw [← hsplit, hd]
      simp
    | cons d ds =>
      rw [hd] at h
      simp only [Option.some.injEq, Prod.mk.injEq] at h
      obtain ⟨rfl, rfl⟩ := h
      have hms := siftup_ms ((d :: ds).set 0 lastelt) 0 (by simp)
      rw [hms]
      have hset := ms_set (d :: ds) 0 lastelt (by simp)
      have hd0 : (d :: ds).getD 0 dNode = d := rfl
      rw [hd0] at hset
      calc (heap : Multiset Node)
          = ((heap.dropLast ++ [lastelt] : List Node) : Multiset Node) := by
            rw [hsplit]
        _ = ((d :: ds : List Node) : Multiset Node) + {lastelt} := by
            rw [hd, ← Multiset.coe_singleton, ← Multiset.coe_add]
        _ = ((d :: ds).set 0 lastelt : Multiset Node) + {(d :: ds).getD 0 dNode} := by
            rw [hd0, hset]
        _ = (d :: ds).getD 0 dNode ::ₘ ((d :: ds).set 0 lastelt : Multiset Node) := by
            rw [add_comm, Multiset.singleton_add]

theorem heappop_length (heap : List Node) (x : Node) (h' : List Node)
    (h : heappop heap = some (x, h')) : heap.length = h'.length + 1 := by
  have hms := heappop_ms heap x h' h
  have := congrArg Multiset.card hms
  simpa using this

theorem heappop_isSome (heap : List Node) (hne : heap ≠ []) :
    ∃ x h', heappop heap = some (x, h') := by
  unfold heappop
  cases hl : heap.getLast? with
  | none =>
    exfalso
    rw [List.getLast?_eq_getLast heap hne] at hl
    simp at hl
  | some lastelt =>
    cases hd : heap.dropLast with
    | nil => exact ⟨lastelt, [], rfl⟩
    | cons d ds => exact ⟨_, _, rfl⟩

theorem foldl_siftup_length :
    ∀ (is : List ℕ) (acc : List Node),
      (is.foldl (fun h i => siftup h i) acc).length = acc.length := by
  intro is
  induction is with
  | nil => intro acc; rfl
  | cons i rest ih =>
    intro acc
    rw [List.foldl_cons, ih, siftup_length]

theorem heapify_length (heap : List Node) :
    (heapify heap).length = heap.length := by
  unfold heapify
  rw [foldl_siftup_length]

theorem heapify_ms (heap : List Node) :
    (heapify heap : Multiset Node) = (heap : Multiset Node) := by
  unfold heapify
  have hgen : ∀ (is : List ℕ) (acc : List Node), (∀ i ∈ is, i < acc.length) →
      ((is.foldl (fun h i => siftup h i) acc : List Node) : Multiset Node) =
        (acc : Multiset Node) := by
    intro is
    induction is with
    | nil => intro acc _; rfl
    | cons i rest ih =>
      intro acc hbound
      rw [List.foldl_cons, ih _ (fun j hj => by
        rw [siftup_length]
        exact hbound j (by simp [hj])), siftup_ms _ _ (hbound i (by simp))]
  apply hgen
  intro i hi
  rw [List.mem_reverse, List.mem_range] at hi
  omega

/-! ### Well-formed Huffman trees -/

/-- A proper Huffman tree: a symbol-carrying leaf, or a symbolless internal
node with two children. -/
inductive WfTree : Node → Prop where
  | leaf (s f : ℕ) : WfTree (.mk (some s) f none none)
  | node (f : ℕ) (a b : Node) : WfTree a → WfTree b →
      WfTree (.mk none f (some a) (some b))

/-- The multiset of symbols on the symbol-carrying nodes of a tree. -/
def leafSyms : Node → Multiset ℕ
  | .mk s _ l r =>
    (match s with
      | some v => ({v} : Multiset ℕ)
      | none => 0) +
    (match l with
      | some a => leafSyms a
      | none => 0) +
    (match r with
      | some b => leafSyms b
      | none => 0)

/-- The merge loop of `build_huffman_tree` (`Huffman.py` lines 119-128):
`while len(heap) > 1`, pop the two smallest, fuse them (frequency the sum,
left = first popped, right = second), push back; finally return `heap[0]`.
Fuel bounds the iteration count; `buildLoop_wf` shows `heap.length`
suffices. -/
def buildLoop : ℕ → List Node → Option Node
  | 0, _ => none
  | fuel + 1, heap =>
    if 1 < heap.length then
      match heappop heap with
      | none => none
      | some (left, h1) =>
        match heappop h1 with
        | none => none
        | some (right, h2) =>
          buildLoop fuel (heappush h2
            (.mk none (left.frequency + right.frequency) (some left)
              (some right)))
    else heap.head?

/-- `HuffmanCode.build_huffman_tree(frequency_table)` (`Huffman.py` lines
81-128): `None` for an empty table, a solitary leaf for a single entry,
otherwise heapify the leaves and merge. -/
def build_huffman_tree (hist : List (ℕ × ℕ)) : Option Node :=
  match hist with
  | [] => none
  | [(s, f)] => some (.mk (some s) f none none)
  | _ => buildLoop hist.length
    (heapify (hist.map (fun p => .mk (some p.1) p.2 none none)))

theorem leafSyms_leaf (s f : ℕ) :
    leafSyms (.mk (some s) f none none) = {s} := by
  simp [leafSyms]

theorem leafSyms_node (f : ℕ) (a b : Node) :
    leafSyms (.mk none f (some a) (some b)) = leafSyms a + leafSyms b := by
  simp [leafSyms]

theorem buildLoop_wf : ∀ (fuel : ℕ) (heap : List Node), heap.length ≤ fuel →
    heap ≠ [] → (∀ x ∈ heap, WfTree x) →
    ∃ t, buildLoop fuel heap = some t ∧ WfTree t ∧
      ((heap : Multiset Node).map leafSyms).sum = leafSyms t ∧
      (1 < heap.length → t.symbol = none) := by
  intro fuel
  induction fuel with
  | zero =>
    intro heap hlen hne _
    have := List.length_pos.mpr hne
    omega
  | succ n ih =>
    intro heap hlen hne hwf
    by_cases hlt : 1 < heap.length
    · obtain ⟨l, h1, hp1⟩ := heappop_isSome heap hne
      have hms1 := heappop_ms heap l h1 hp1
      have hlen1 := heappop_length heap l h1 hp1
      have hne1 : h1 ≠ [] := by
        intro hnil
        rw [hnil] at hlen1
        simp at hlen1
        omega
      obtain ⟨r, h2, hp2⟩ := heappop_isSome h1 hne1
      have hms2 := heappop_ms h1 r h2 hp2
      have hlen2 := heappop_length h1 r h2 hp2
      have hl_mem : l ∈ heap := by
        rw [← Multiset.mem_coe, hms1]
        exact Multiset.mem_cons_self _ _
      have hr_mem : r ∈ heap := by
        rw [← Multiset.mem_coe, hms1]
        apply Multiset.mem_cons_of_mem
        rw [hms2]
        exact Multiset.mem_cons_self _ _
      set m := Node.mk none (l.frequency + r.frequency) (some l) (some r) with hm
      have hwfm : WfTree m := WfTree.node _ l r (hwf l hl_mem) (hwf r hr_mem)
      have hple : (heappush h2 m).length ≤ n := by
        rw [heappush_length]
        omega
      have hnep : heappush h2 m ≠ [] := by
        intro hnil
        have := heappush_length h2 m
        rw [hnil] at this
        simp at this
      have hwfp : ∀ x ∈ heappush h2 m, WfTree x := by
        intro x hx
        rw [← Multiset.mem_coe, heappush_ms, Multiset.mem_cons] at hx
        rcases hx with rfl | hx
        · exact hwfm
        · apply hwf
          rw [← Multiset.mem_coe, hms1]
          apply Multiset.mem_cons_of_mem
          rw [hms2]
          exact Multiset.mem_cons_of_mem hx
      obtain ⟨t, hbl, hwt, hsum2, hs2⟩ := ih (heappush h2 m) hple hnep hwfp
      have hstep : buildLoop (n + 1) heap = buildLoop n (heappush h2 m) := by
        simp only [buildLoop]
        rw [if_pos hlt, hp1]
        dsimp only
        rw [hp2]
      have hsum : ((heap : Multiset Node).map leafSyms).sum
          = (((heappush h2 m : List Node) : Multiset Node).map leafSyms).sum := by
        rw [heappush_ms, hms1, hms2, hm]
        simp only [Multiset.map_cons, Multiset.sum_cons, leafSyms_node]
        rw [← add_assoc]
      refine ⟨t, by rw [hstep]; exact hbl, hwt, by rw [hsum]; exact hsum2,
        fun _ => ?_⟩
      by_cases hplt : 1 < (heappush h2 m).length
      · exact hs2 hplt
      · have hl2 : h2 = [] := by
          have hpl := heappush_length h2 m
          have hz : h2.length = 0 := by omega
          exact List.length_eq_zero.mp hz
        subst hl2
        have hone : (heappush ([] : List Node) m).length = 1 := by
          rw [heappush_length]
          simp
        obtain ⟨a, ha⟩ := List.length_eq_one.mp hone
        have hmsp : ((heappush ([] : List Node) m : List Node) : Multiset Node)
            = {m} := by
          rw [heappush_ms]
          rfl
        rw [ha] at hmsp hbl
        have haa : a = m := by
          rw [Multiset.coe_singleton] at hmsp
          exact Multiset.singleton_inj.mp hmsp
        subst haa
        cases n with
        | zero =>
          rw [ha] at hple
          simp at hple
        | succ k =>
          simp only [buildLoop, List.length_singleton] at hbl
          rw [if_neg (by omega)] at hbl
          simp only [List.head?_cons] at hbl
          have hmt : m = t := Option.some_inj.mp hbl
          rw [← hmt, hm]
          rfl
    · have hone : heap.length = 1 := by
        have := List.length_pos.mpr hne
        omega
      obtain ⟨x, rfl⟩ := List.length_eq_one.mp hone
      refine ⟨x, by simp [buildLoop], hwf x (by simp), by simp, ?_⟩
      intro hcontra
      simp at hcontra

theorem leafSyms_map_sum (l : List (ℕ × ℕ)) :
    (((l.map (fun x => Node.mk (some x.1) x.2 none none) : List Node) :
      Multiset Node).map leafSyms).sum = (↑(l.map Prod.fst) : Multiset ℕ) := by
  induction l with
  | nil => rfl
  | cons p rest ih =>
    simp only [List.map_cons, ← Multiset.cons_coe, Multiset.map_cons,
      Multiset.sum_cons, ih, leafSyms_leaf]
    rw [← Multiset.singleton_add]

theorem buildTree_wf (hist : List (ℕ × ℕ)) (hne : hist ≠ []) :
    ∃ t, build_huffman_tree hist = some t ∧ WfTree t ∧
      leafSyms t = (↑(hist.map Prod.fst) : Multiset ℕ) ∧
      (1 < hist.length → t.symbol = none) := by
  match hist with
  | [] => exact absurd rfl hne
  | [(s, f)] =>
    refine ⟨.mk (some s) f none none, rfl, .leaf s f, ?_, ?_⟩
    · rw [leafSyms_leaf]
      rfl
    · intro hcontra
      simp at hcontra
  | p :: q :: rest =>
    have hred : build_huffman_tree (p :: q :: rest) =
        buildLoop (p :: q :: rest).length
          (heapify ((p :: q :: rest).map
            (fun x => Node.mk (some x.1) x.2 none none))) := rfl
    set heap0 := heapify ((p :: q :: rest).map
      (fun x => Node.mk (some x.1) x.2 none none)) with hheap0
    have hlen0 : heap0.length = (p :: q :: rest).length := by
      rw [hheap0, heapify_length, List.length_map]
    have hwf0 : ∀ x ∈ heap0, WfTree x := by
      intro x hx
      rw [← Multiset.mem_coe, hheap0, heapify_ms, Multiset.mem_coe] at hx
      obtain ⟨y, _, rfl⟩ := List.mem_map.mp hx
      exact .leaf _ _
    have hne0 : heap0 ≠ [] := by
      intro hnil
      rw [hnil] at hlen0
      simp at hlen0
    obtain ⟨t, hbl, hwt, hsum, hsym⟩ :=
      buildLoop_wf (p :: q :: rest).length heap0 (le_of_eq hlen0) hne0 hwf0
    refine ⟨t, by rw [hred]; exact hbl, hwt, ?_,
      fun _ => hsym (by rw [hlen0]; simp)⟩
    rw [← hsum, hheap0, heapify_ms, leafSyms_map_sum]

/-! ### Code generation (`generate_huffman_codes` / `generate`) -/

/-- Python dict assignment `d[k] = v`: overwrite in place if the key exists,
else append at the end. -/
def dictSet (d : List (ℕ × List Char)) (k : ℕ) (v : List Char) :
    List (ℕ × List Char) :=
  match d with
  | [] => [(k, v)]
  | (k', v') :: rest =>
    if k' = k then (k, v) :: rest else (k', v') :: dictSet rest k v

/-- `HuffmanCode.generate_huffman_codes` (`Huffman.py` lines 130-175) on a
non-`None` node: a node carrying a symbol stores the accumulated code;
an internal node recurses into whichever children exist, `'0'` for left
then `'1'` for right, threading the dictionary. -/
def generateCodes : Node → List Char → List (ℕ × List Char) →
    List (ℕ × List Char)
  | .mk (some s) _ _ _, cur, acc => dictSet acc s cur
  | .mk none _ none none, _, acc => acc
  | .mk none _ (some a) none, cur, acc => generateCodes a (cur ++ ['0']) acc
  | .mk none _ none (some b), cur, acc => generateCodes b (cur ++ ['1']) acc
  | .mk none _ (some a) (some b), cur, acc =>
    generateCodes b (cur ++ ['1']) (generateCodes a (cur ++ ['0']) acc)

/-- `HuffmanCode.generate_huffman_codes` including the `node is None`
guard. -/
def generate_huffman_codes (node : Option Node) (current_code : List Char)
    (huffman_codes : List (ℕ × List Char)) : List (ℕ × List Char) :=
  match node with
  | none => huffman_codes
  | some n => generateCodes n current_code huffman_codes

/-- `HuffmanCode.generate` (`Huffman.py` lines 177-201): `{}` for an empty
table; otherwise build the tree and walk it, starting from `"0"` when the
table has exactly one entry and from `""` otherwise. -/
def generate (symbol_frequencies : List (ℕ × ℕ)) : List (ℕ × List Char) :=
  if symbol_frequencies = [] then []
  else generate_huffman_codes (build_huffman_tree symbol_frequencies)
    (if symbol_frequencies.length = 1 then ['0'] else []) []

theorem lookup_dictSet (s : ℕ) (v : List Char) :
    ∀ (d : List (ℕ × List Char)) (k : ℕ),
      (dictSet d s v).lookup k = if k = s then some v else d.lookup k := by
  intro d
  induction d with
  | nil =>
    intro k
    by_cases h : k = s
    · subst h
      simp [dictSet, List.lookup]
    · have hb : (k == s) = false := beq_eq_false_iff_ne.mpr h
      simp [dictSet, List.lookup, h, hb]
  | cons p rest ih =>
    intro k
    obtain ⟨k', v'⟩ := p
    by_cases h : k' = s
    · subst h
      by_cases hk : k = k'
      · subst hk
        simp [dictSet, List.lookup]
      · have hb : (k == k') = false := beq_eq_false_iff_ne.mpr hk
        simp [dictSet, List.lookup, hk, hb]
    · by_cases hkp : k = k'
      · subst hkp
        have hks : ¬ k = s := h
        simp [dictSet, h, List.lookup, hks]
      · have hb : (k == k') = false := beq_eq_false_iff_ne.mpr hkp
        simp [dictSet, h, List.lookup, hb, ih]

/-- `Leads t c s`: following the bit string `c` from `t` — `'0'` to the left
child, `'1'` to the right — arrives at a node carrying the symbol `s`. -/
inductive Leads : Node → List Char → ℕ → Prop where
  | here (s f : ℕ) (l r : Option Node) : Leads (.mk (some s) f l r) [] s
  | left (f : ℕ) (a : Node) (b : Option Node) (c : List Char) (s : ℕ) :
      Leads a c s → Leads (.mk none f (some a) b) ('0' :: c) s
  | right (f : ℕ) (a : Option Node) (b : Node) (c : List Char) (s : ℕ) :
      Leads b c s → Leads (.mk none f a (some b)) ('1' :: c) s

theorem Leads_ne_nil (t : Node) (c : List Char) (s : ℕ) (h : Leads t c s)
    (hsym : t.symbol = none) : c ≠ [] := by
  cases h with
  | here s f l r => simp [Node.symbol] at hsym
  | left f a b c s h => simp
  | right f a b c s h => simp

theorem generateCodes_spec (t : Node) (hW : WfTree t) :
    ∀ (cur : List Char) (acc : List (ℕ × List Char)),
      (∀ s ∈ leafSyms t, ∃ c,
        (generateCodes t cur acc).lookup s = some (cur ++ c) ∧ Leads t c s) ∧
      (∀ s, s ∉ leafSyms t →
        (generateCodes t cur acc).lookup s = acc.lookup s) := by
  induction hW with
  | leaf s0 f =>
    intro cur acc
    constructor
    · intro s hs
      have hss : s = s0 := by simpa [leafSyms_leaf] using hs
      subst hss
      refine ⟨[], ?_, .here s f none none⟩
      rw [show generateCodes (.mk (some s) f none none) cur acc
        = dictSet acc s cur from rfl, lookup_dictSet]
      simp
    · intro s hs
      have hne : ¬ s = s0 := by simpa [leafSyms_leaf] using hs
      rw [show generateCodes (.mk (some s0) f none none) cur acc
        = dictSet acc s0 cur from rfl, lookup_dictSet, if_neg hne]
  | node f a b hwa hwb iha ihb =>
    intro cur acc
    have hred : generateCodes (.mk none f (some a) (some b)) cur acc
        = generateCodes b (cur ++ ['1'])
            (generateCodes a (cur ++ ['0']) acc) := rfl
    constructor
    · intro s hs
      rw [leafSyms_node, Multiset.mem_add] at hs
      by_cases hmb : s ∈ leafSyms b
      · obtain ⟨c, hc, hlead⟩ :=
          (ihb (cur ++ ['1']) (generateCodes a (cur ++ ['0']) acc)).1 s hmb
        refine ⟨'1' :: c, ?_, .right f (some a) b c s hlead⟩
        rw [hred, hc]
        simp
      · have hma : s ∈ leafSyms a := hs.resolve_right hmb
        obtain ⟨c, hc, hlead⟩ := (iha (cur ++ ['0']) acc).1 s hma
        have hskip :=
          (ihb (cur ++ ['1']) (generateCodes a (cur ++ ['0']) acc)).2 s hmb
        refine ⟨'0' :: c, ?_, .left f a (some b) c s hlead⟩
        rw [hred, hskip, hc]
        simp
    · intro s hs
      rw [leafSyms_node, Multiset.mem_add] at hs
      push_neg at hs
      rw [hred, (ihb _ _).2 s hs.2, (iha _ _).2 s hs.1]

/-! ### Decoding a concatenation of tree paths -/

theorem hDecodeGo_code (root : Node) :
    ∀ (cur : Node) (code : List Char) (s : ℕ), Leads cur code s →
      WfTree cur → cur.symbol = none → ∀ (rest : List Char) (acc : List ℕ),
      hDecodeGo root (code ++ rest) cur acc
        = hDecodeGo root rest root (s :: acc) := by
  intro cur code s hlead
  induction hlead with
  | here s f l r =>
    intro _ hsym
    simp [Node.symbol] at hsym
  | left f a b c s hla ih =>
    intro hwf _ rest acc
    cases hwf with
    | node f a b' hwa hwb =>
      cases a with
      | mk asym af al ar =>
        cases asym with
        | some sA =>
          cases hla with
          | here =>
            simp [hDecodeGo, Node.left, Node.symbol]
        | none =>
          have hrec := ih hwa rfl rest acc
          rw [← hrec]
          simp [hDecodeGo, Node.left, Node.symbol]
  | right f a b c s hlb ih =>
    intro hwf _ rest acc
    cases hwf with
    | node f a' b hwa hwb =>
      have hne10 : ('1' : Char) ≠ '0' := by decide
      cases b with
      | mk bsym bf bl br =>
        cases bsym with
        | some sB =>
          cases hlb with
          | here =>
            simp [hDecodeGo, Node.right, Node.symbol, hne10]
        | none =>
          have hrec := ih hwb rfl rest acc
          rw [← hrec]
          simp [hDecodeGo, Node.right, Node.symbol, hne10]

theorem hDecodeGo_codes (root : Node) (hW : WfTree root)
    (hsym : root.symbol = none) :
    ∀ (data : List ℕ) (cs : List (List Char)) (acc : List ℕ),
      List.Forall₂ (fun s c => Leads root c s) data cs →
      hDecodeGo root cs.flatten root acc = .ok (acc.reverse ++ data) := by
  intro data cs acc hf
  induction hf generalizing acc with
  | nil => simp [hDecodeGo]
  | cons h₁ h₂ ih =>
    rw [List.flatten_cons, hDecodeGo_code root root _ _ h₁ hW hsym, ih]
    simp

theorem hEncodeGo_ok (codes : List (ℕ × List Char)) :
    ∀ (data : List ℕ) (cs : List (List Char)),
      List.Forall₂ (fun s c => codes.lookup s = some c) data cs →
      hEncodeGo codes data = .ok cs.flatten := by
  intro data cs hf
  induction hf with
  | nil => rfl
  | cons h₁ h₂ ih =>
    simp [hEncodeGo, h₁, ih, Except.map]

theorem forall2_choose {P : ℕ → List Char → Prop} :
    ∀ (l : List ℕ), (∀ s ∈ l, ∃ c, P s c) →
      ∃ cs, List.Forall₂ P l cs := by
  intro l
  induction l with
  | nil =>
    intro _
    exact ⟨[], .nil⟩
  | cons s rest ih =>
    intro h
    obtain ⟨c, hc⟩ := h s (by simp)
    obtain ⟨cs, hcs⟩ := ih (fun x hx => h x (by simp [hx]))
    exact ⟨c :: cs, .cons hc hcs⟩

theorem hEncodeGo_single (codes : List (ℕ × List Char)) (s0 : ℕ)
    (hlook : codes.lookup s0 = some ['0']) :
    ∀ data : List ℕ, (∀ s ∈ data, s = s0) →
      hEncodeGo codes data = .ok (List.replicate data.length '0') := by
  intro data
  induction data with
  | nil =>
    intro _
    rfl
  | cons s rest ih =>
    intro hall
    have hs : s = s0 := hall s (by simp)
    subst hs
    simp [hEncodeGo, hlook, ih (fun x hx => hall x (by simp [hx])),
      Except.map, List.replicate_succ]

/-! ## Claim C2: the Huffman round-trip -/

/-- **C2.** For every non-empty frequency histogram and every symbol
sequence drawn from its alphabet, decoding the encoding round-trips:
`HuffmanCode.decode(HuffmanCode.encode(data, generate(H)),
build_huffman_tree(H))` returns exactly `data` — including the single-entry
histogram, whose sole code is `"0"`. -/
theorem huffman_roundtrip (hist : List (ℕ × ℕ)) (data : List ℕ)
    (hne : hist ≠ []) (hdata : ∀ s ∈ data, s ∈ hist.map Prod.fst) :
    ∃ bits, hEncode data (generate hist) = .ok bits ∧
      hDecode bits (build_huffman_tree hist) = .ok data := by
  obtain ⟨t, htree, hwt, hsyms, hsymnone⟩ := buildTree_wf hist hne
  by_cases hone : hist.length = 1
  · obtain ⟨p, rfl⟩ := List.length_eq_one.mp hone
    obtain ⟨s0, f0⟩ := p
    have hcodes : generate [(s0, f0)] = [(s0, ['0'])] := by
      simp [generate, generate_huffman_codes, build_huffman_tree,
        generateCodes, dictSet]
    have hdat : ∀ s ∈ data, s = s0 := by
      intro s hs
      simpa using hdata s hs
    cases data with
    | nil =>
      refine ⟨[], by simp [hEncode], ?_⟩
      rw [htree]
      simp [hDecode]
    | cons d data' =>
      have hbits : hEncode (d :: data') (generate [(s0, f0)])
          = .ok (List.replicate (d :: data').length '0') := by
        rw [hcodes, hEncode, if_neg ?hguard]
        · exact hEncodeGo_single _ s0 (by simp [List.lookup]) _ hdat
        case hguard =>
          push_neg
          exact ⟨by simp, by simp⟩
      refine ⟨_, hbits, ?_⟩
      have htree' : build_huffman_tree [(s0, f0)]
          = some (.mk (some s0) f0 none none) := rfl
      rw [htree']
      have hrepl : (d :: data') = List.replicate (d :: data').length s0 :=
        List.eq_replicate_of_mem hdat
      simp [hDecode, Node.symbol]
      exact hrepl.symm
  · have hlt : 1 < hist.length := by
      have := List.length_pos.mpr hne
      omega
    have hsym0 : t.symbol = none := hsymnone hlt
    have hgen : generate hist = generateCodes t [] [] := by
      rw [generate, if_neg hne, htree]
      simp [generate_huffman_codes, hone]
    have hspec := (generateCodes_spec t hwt [] []).1
    have hex : ∀ s ∈ data, ∃ c,
        (generate hist).lookup s = some c ∧ Leads t c s := by
      intro s hs
      have hmem : s ∈ leafSyms t := by
        rw [hsyms, Multiset.mem_coe]
        exact hdata s hs
      obtain ⟨c, hc, hl⟩ := hspec s hmem
      exact ⟨c, by rw [hgen]; simpa using hc, hl⟩
    obtain ⟨cs, hcs⟩ := forall2_choose data hex
    cases hcs with
    | nil =>
      refine ⟨[], by simp [hEncode], ?_⟩
      rw [htree]
      simp [hDecode]
    | cons hpair hrest =>
      rename_i d c data' cs'
      have hclook : (generate hist).lookup d = some c := hpair.1
      have hlead : Leads t c d := hpair.2
      have hcodes_ne : generate hist ≠ [] := by
        intro hnil
        rw [hnil] at hclook
        simp [List.lookup] at hclook
      have henc : hEncode (d :: data') (generate hist)
          = .ok ((c :: cs').flatten) := by
        rw [hEncode, if_neg (by push_neg; exact ⟨by simp, hcodes_ne⟩)]
        exact hEncodeGo_ok _ _ _ (.cons hpair.1 (hrest.imp (fun _ _ h => h.1)))
      have hcne : c ≠ [] := Leads_ne_nil t c d hlead hsym0
      have hfne : (c :: cs').flatten ≠ [] := by
        simp only [List.flatten_cons]
        intro h
        rw [List.append_eq_nil] at h
        exact hcne h.1
      refine ⟨_, henc, ?_⟩
      rw [htree]
      simp only [hDecode]
      rw [if_neg hfne, hsym0]
      dsimp only
      have hdec := hDecodeGo_codes t hwt hsym0 (d :: data') (c :: cs') []
        (.cons hlead (hrest.imp (fun _ _ h => h.2)))
      simpa using hdec

/-- Concrete round-trip instance: histogram `{1: 3, 2: 1, 3: 1}` and data
`[1, 2, 3, 1]`. -/
theorem huffman_roundtrip_witness :
    ([((1 : ℕ), (3 : ℕ)), (2, 1), (3, 1)] ≠ ([] : List (ℕ × ℕ))) ∧
    (∀ s ∈ [(1 : ℕ), 2, 3, 1],
      s ∈ [((1 : ℕ), (3 : ℕ)), (2, 1), (3, 1)].map Prod.fst) ∧
    ∃ bits,
      hEncode [1, 2, 3, 1] (generate [(1, 3), (2, 1), (3, 1)]) = .ok bits ∧
      hDecode bits (build_huffman_tree [(1, 3), (2, 1), (3, 1)])
        = .ok [1, 2, 3, 1] :=
  ⟨by decide, by decide, huffman_roundtrip _ _ (by decide) (by decide)⟩

end SpecDecoding
